import Mathlib

/-!
Verification of the index/synchronization engine of the syncthing
repository: the `files.Set` multi-peer index (src/files/set.go), the
connection-ID map (src/cid/cid.go), the model's `Request` handler
(src/cmd/syncthing/model.go) and the puller's `leastBusyNode`
(src/cmd/syncthing/model_puller.go).

Go maps are embedded as association lists with unique keys; a read from a
missing key yields the Go zero value via `getD`, exactly as a Go map read
does.  Go's `uint32` version arithmetic is carried out on `Nat` with an
explicit reduction modulo 2^32 at each increment site.  `NewSet` in the
source leaves the 64 per-slot maps `nil`; a nil map reads as empty, so the
slots are embedded as empty maps (concrete executions below only ever write
to a slot after a `Set*` call has initialised it, mirroring runs that do
not panic in Go).
-/

namespace SyncSet

/-- Association-list lookup on the first matching key (Go map read). -/
def mget {α β : Type} [DecidableEq α] : List (α × β) → α → Option β
  | [], _ => none
  | p :: t, k => if p.1 = k then some p.2 else mget t k

/-- Association-list insert/replace (Go map assignment). -/
def mput {α β : Type} [DecidableEq α] : List (α × β) → α → β → List (α × β)
  | [], k, v => [(k, v)]
  | p :: t, k, v => if p.1 = k then (k, v) :: t else p :: mput t k v

/-- Association-list removal (Go `delete`). -/
def mdel {α β : Type} [DecidableEq α] : List (α × β) → α → List (α × β)
  | [], _ => []
  | p :: t, k => if p.1 = k then t else p :: mdel t k

/-- The keys of an association list are pairwise distinct; Go maps always
satisfy this, and `mput`/`mdel` preserve it. -/
def NodupKeys {α β : Type} (m : List (α × β)) : Prop :=
  (m.map Prod.fst).Nodup

instance {α β : Type} [DecidableEq α] (m : List (α × β)) :
    Decidable (NodupKeys m) :=
  List.nodupDecidable (m.map Prod.fst)

/-- The empty string (the zero value of Go's string type; also the marker
of a freed slot in the connection-ID table). -/
def emptyStr : String := ""

/-- A block descriptor as used by the scanner package: offset, size and
content hash.  The set operations never inspect block internals. -/
structure SBlock where
  Offset : Int
  Size : Nat
  Hash : List Nat
deriving DecidableEq, Repr

/-- Modelled from the spec: the wire protocol's deleted-flag bit.  The
protocol package is not under src/; the claims only rely on this being a
fixed nonzero flag constant distinct from a zero flag field. -/
def FlagDeleted : Nat := 4096

/-- scanner.File, with the fields the set/model code reads: name, size,
flag bitset, modification time, version (uint32) and block list, plus the
`Suppressed` attribute used by `Request`. -/
structure SFile where
  Name : String
  Size : Int
  Flags : Nat
  Modified : Int
  Version : Nat
  Blocks : List SBlock
  Suppressed : Bool
deriving DecidableEq, Repr

/-- The Go zero value of scanner.File. -/
def zeroFile : SFile :=
  { Name := "", Size := 0, Flags := 0, Modified := 0, Version := 0,
    Blocks := [], Suppressed := false }

/-- uint32 arithmetic: reduce modulo 2^32. -/
def u32 (x : Nat) : Nat := x % 4294967296

/-- files.key: the (Name, Version) pair. -/
structure FKey where
  Name : String
  Version : Nat
deriving DecidableEq, Repr

/-- The Go zero value of files.key. -/
def zeroKey : FKey := { Name := "", Version := 0 }

/-- files.keyFor. -/
def keyFor (f : SFile) : FKey := { Name := f.Name, Version := f.Version }

/-- files.key.newerThan: strict version comparison. -/
def FKey.newerThan (a b : FKey) : Prop := b.Version < a.Version

instance (a b : FKey) : Decidable (a.newerThan b) := Nat.decLt _ _

/-- files.fileRecord: usage count plus the retained record. -/
structure FileRecord where
  Usage : Int
  File : SFile
deriving DecidableEq, Repr

/-- The Go zero value of files.fileRecord. -/
def zeroRecord : FileRecord := { Usage := 0, File := zeroFile }

/-- files.Set: the shared record store, the 64 per-slot name→key maps,
the global availability bitsets and the global name→key map. -/
structure FSet where
  files : List (FKey × FileRecord)
  remoteKey : Nat → List (String × FKey)
  globalAvailability : List (String × Nat)
  globalKey : List (String × FKey)

/-- files.NewSet (nil slot maps read as empty maps). -/
def initialSet : FSet :=
  { files := [], remoteKey := fun _ => [], globalAvailability := [],
    globalKey := [] }

/-- The key actually installed by the loop body of files.Set.addRemote:
if the caller didn't set a version, set it to current plus one (uint32). -/
def addRemoteOneKey (cid : Nat) (s : FSet) (f : SFile) : FKey :=
  if (keyFor f).Version = 0 then
    { keyFor f with
      Version := u32 (((mget (s.remoteKey cid) f.Name).getD zeroKey).Version + 1) }
  else keyFor f

/-- The files-map update of the addRemote loop body: keep the block list
(the existing record) or increment the usage. -/
def addRemoteFiles (s : FSet) (fk : FKey) (f : SFile) :
    List (FKey × FileRecord) :=
  match mget s.files fk with
  | none => mput s.files fk { Usage := 1, File := f }
  | some br => mput s.files fk { Usage := br.Usage + 1, File := br.File }

/-- The global-view update of the addRemote loop body: a key equal to the
current global key adds the slot's availability bit; a strictly newer key
replaces the global key and resets availability to the slot's bit alone;
anything else leaves the global view untouched. -/
def addRemoteGlobal (cid : Nat) (s : FSet) (n : String) (fk : FKey) :
    List (String × FKey) × List (String × Nat) :=
  match mget s.globalKey n with
  | some gk =>
    if fk = gk then
      (s.globalKey,
       mput s.globalAvailability n
         (((mget s.globalAvailability n).getD 0) ||| (1 <<< cid)))
    else if fk.newerThan gk then
      (mput s.globalKey n fk, mput s.globalAvailability n (1 <<< cid))
    else
      (s.globalKey, s.globalAvailability)
  | none =>
    if fk.newerThan zeroKey then
      (mput s.globalKey n fk, mput s.globalAvailability n (1 <<< cid))
    else
      (s.globalKey, s.globalAvailability)

/-- One iteration of the loop body of files.Set.addRemote for a single
incoming record: skip when the slot already holds exactly this key, else
install the (possibly version-rewritten) key and update files and the
global view. -/
def addRemoteOne (cid : Nat) (s : FSet) (f : SFile) : FSet :=
  if mget (s.remoteKey cid) f.Name = some (keyFor f) then
    -- the remote already has exactly this file, skip it
    s
  else
    { files := addRemoteFiles s (addRemoteOneKey cid s f) f,
      remoteKey := fun c =>
        if c = cid then
          mput (s.remoteKey cid) f.Name (addRemoteOneKey cid s f)
        else s.remoteKey c,
      globalKey := (addRemoteGlobal cid s f.Name (addRemoteOneKey cid s f)).1,
      globalAvailability :=
        (addRemoteGlobal cid s f.Name (addRemoteOneKey cid s f)).2 }

/-- files.Set.addRemote: process the record list in order. -/
def addRemote (cid : Nat) (fs : List SFile) (s : FSet) : FSet :=
  fs.foldl (addRemoteOne cid) s

/-- The usage decrement of files.Set.setRemote for one key: delete the
entry at usage 1, decrement above 1. -/
def decUsage (files : List (FKey × FileRecord)) (fk : FKey) :
    List (FKey × FileRecord) :=
  match mget files fk with
  | some br =>
    if br.Usage = 1 then mdel files fk
    else if 1 < br.Usage then
      mput files fk { Usage := br.Usage - 1, File := br.File }
    else files
  | none => files

/-- One slot of the inner max-recomputation loop of files.Set.setRemote:
equal keys accumulate availability bits, strictly newer keys reset them. -/
def recomputeStep (s : FSet) (n : String) (p : FKey × Nat) (i : Nat) :
    FKey × Nat :=
  match mget (s.remoteKey i) n with
  | some rk =>
    if rk = p.1 then (p.1, p.2 ||| (1 <<< i))
    else if rk.newerThan p.1 then (rk, 1 <<< i)
    else p
  | none => p

/-- The per-name global recomputation of files.Set.setRemote: scan the 64
slots from the zero key; a nonzero availability installs the winner, zero
availability drops the name from the global view. -/
def recomputeName (s : FSet) (n : String) : FSet :=
  let p := (List.range 64).foldl (recomputeStep s n) (zeroKey, 0)
  if p.2 ≠ 0 then
    { s with globalKey := mput s.globalKey n p.1,
             globalAvailability := mput s.globalAvailability n p.2 }
  else
    { s with globalKey := mdel s.globalKey n,
             globalAvailability := mdel s.globalAvailability n }

/-- The first two phases of files.Set.setRemote: decrement usage for all
files belonging to the slot (removing those no longer needed) and clear
the slot's map. -/
def clearSlot (cid : Nat) (s : FSet) : FSet :=
  { s with
    files := (s.remoteKey cid).foldl (fun acc p => decUsage acc p.2) s.files,
    remoteKey := fun c => if c = cid then [] else s.remoteKey c }

/-- files.Set.setRemote: decrement usage of the slot's keys, clear the
slot, recompute the global view for every name it tracked, then ingest the
new list via addRemote. -/
def setRemote (cid : Nat) (fs : List SFile) (s : FSet) : FSet :=
  addRemote cid fs
    (((clearSlot cid s).globalKey.map Prod.fst).foldl recomputeName
      (clearSlot cid s))

/-- files.Set.SetLocal: synthesise tombstones for names present in the
local slot but absent from the list, then replace the local slot. -/
def setLocal (s : FSet) (fs : List SFile) : FSet :=
  let tomb := (s.remoteKey 0).filterMap (fun p =>
    if fs.any (fun f => f.Name == p.2.Name) then none
    else
      let cf := ((mget s.files p.2).getD zeroRecord).File
      some { cf with Flags := FlagDeleted, Blocks := [], Size := 0,
                     Version := u32 (cf.Version + 1) })
  setRemote 0 (fs ++ tomb) s

/-- files.Set.SetLocalNoDelete. -/
def setLocalNoDelete (s : FSet) (fs : List SFile) : FSet :=
  setRemote 0 fs s

/-- files.Set.AddLocal. -/
def addLocal (s : FSet) (fs : List SFile) : FSet :=
  addRemote 0 fs s

/-- files.Set.Need: records of global keys strictly newer than the slot's
key for the name (a missing slot key reads as the zero key). -/
def needS (s : FSet) (cid : Nat) : List SFile :=
  s.globalKey.filterMap (fun p =>
    if p.2.newerThan ((mget (s.remoteKey cid) p.1).getD zeroKey) then
      some ((mget s.files p.2).getD zeroRecord).File
    else none)

/-- files.Set.Have. -/
def haveS (s : FSet) (cid : Nat) : List SFile :=
  (s.remoteKey cid).map (fun p => ((mget s.files p.2).getD zeroRecord).File)

/-- files.Set.Global. -/
def globalS (s : FSet) : List SFile :=
  s.globalKey.map (fun p => ((mget s.files p.2).getD zeroRecord).File)

/-- files.Set.Get: the record the slot holds for the name, or the zero
record. -/
def setGet (s : FSet) (cid : Nat) (file : String) : SFile :=
  ((mget s.files ((mget (s.remoteKey cid) file).getD zeroKey)).getD
    zeroRecord).File

/-- files.Set.Availability. -/
def availabilityS (s : FSet) (n : String) : Nat :=
  (mget s.globalAvailability n).getD 0

/-- The states reachable from NewSet by the public mutating operations.
SetRemote/AddRemote panic outside slots 1..63, so reachability carries the
slot-range guards. -/
inductive Reachable : FSet → Prop
  | base : Reachable initialSet
  | setLocalR {s : FSet} (fs : List SFile) :
      Reachable s → Reachable (setLocal s fs)
  | setLocalNoDeleteR {s : FSet} (fs : List SFile) :
      Reachable s → Reachable (setLocalNoDelete s fs)
  | addLocalR {s : FSet} (fs : List SFile) :
      Reachable s → Reachable (addLocal s fs)
  | setRemoteR {s : FSet} (cid : Nat) (fs : List SFile) :
      Reachable s → 1 ≤ cid → cid ≤ 63 → Reachable (setRemote cid fs s)
  | addRemoteR {s : FSet} (cid : Nat) (fs : List SFile) :
      Reachable s → 1 ≤ cid → cid ≤ 63 → Reachable (addRemote cid fs s)

end SyncSet

namespace Cid

/-- cid.Map: name→slot map plus the slot→name table; freed slots hold the
empty string. -/
structure Map where
  toCid : List (String × Nat)
  toName : List String

/-- cid.LocalName. -/
def LocalName : String := "<local>"

/-- cid.LocalID. -/
def LocalID : Nat := 0

/-- cid.NewMap: slot 0 preloaded with the local name. -/
def NewMap : Map := { toCid := [(LocalName, 0)], toName := [LocalName] }

/-- The free-slot scan of cid.Map.Get: index of the first empty name. -/
def findFree : List String → Nat → Option Nat
  | [], _ => none
  | s :: t, i => if s = "" then some i else findFree t (i + 1)

/-- cid.Map.Get: return the existing id, else reuse the first free slot,
else append a new slot at the end. -/
def get (m : Map) (name : String) : Map × Nat :=
  match SyncSet.mget m.toCid name with
  | some c => (m, c)
  | none =>
    match findFree m.toName 0 with
    | some i =>
      ({ toCid := SyncSet.mput m.toCid name i, toName := m.toName.set i name },
       i)
    | none =>
      ({ toCid := SyncSet.mput m.toCid name m.toName.length,
         toName := m.toName ++ [name] },
       m.toName.length)

/-- cid.Map.Clear: free the slot, leaving the hole for reuse. -/
def clear (m : Map) (name : String) : Map :=
  match SyncSet.mget m.toCid name with
  | some c =>
    { toCid := SyncSet.mdel m.toCid name,
      toName := m.toName.set c SyncSet.emptyStr }
  | none => m

end Cid

namespace SyncModel

open SyncSet

/-- The typed refusals of Model.Request plus an opaque I/O error standing
for any error returned by os.Open or ReadAt. -/
inductive ReqError
  | noSuchFile
  | invalid
  | ioError
deriving DecidableEq, Repr

/-- The disk read of Model.Request, abstracted: os.Open fails on a missing
file; ReadAt fails unless the requested segment lies inside the content. -/
def readSegment (disk : String → Option (List Nat)) (name : String)
    (offset : Int) (size : Int) : Except ReqError (List Nat) :=
  match disk name with
  | none => .error .ioError
  | some content =>
    if 0 ≤ offset ∧ 0 ≤ size ∧ offset.toNat + size.toNat ≤ content.length then
      .ok ((content.drop offset.toNat).take size.toNat)
    else .error .ioError

/-- Model.Request: look up the local record via the file set, reject
offsets past its size with ErrNoSuchFile, reject suppressed records with
ErrInvalid, otherwise read the segment from disk.  The token-bucket rate
limiter only delays the reply and is not modelled. -/
def request (s : FSet) (disk : String → Option (List Nat))
    (nodeID repo name : String) (offset : Int) (size : Int) :
    Except ReqError (List Nat) :=
  let lf := setGet s Cid.LocalID name
  if lf.Size < offset then .error .noSuchFile
  else if lf.Suppressed then .error .invalid
  else readSegment disk name offset size

/-- Model.leastBusyNode (src/cmd/syncthing/model_puller.go): scan the
outstanding-request counts, keep the first node whose connection-id bit is
set in the availability bitset and whose count is strictly below the
running minimum, then increment the selected node's counter.  The Go
initialiser `2<<63 - 1` is an untyped constant of value 2^64-1 (it
overflows int64; the file is excluded from builds), modelled by that
value.  `m.cm.Get` is passed as the function `cmGet`. -/
def lbnStep (cmGet : String → Nat) (availability : Nat)
    (p : Int × String) (nu : String × Int) : Int × String :=
  if availability &&& (1 <<< cmGet nu.1) ≠ 0 then
    if nu.2 < p.1 then (nu.2, nu.1) else p
  else p

def leastBusyNode (counts : List (String × Int)) (cmGet : String → Nat)
    (availability : Nat) : String × List (String × Int) :=
  let p := counts.foldl (lbnStep cmGet availability) (18446744073709551615, "")
  (p.2, mput counts p.2 (((mget counts p.2).getD 0) + 1))

end SyncModel

namespace SyncSet

/-- A concrete file name used in the concrete executions below. -/
def nmA : String := "a"

/-- A record with only name and version set — the shape used throughout
the repository's own tests. -/
def plainFile (n : String) (v : Nat) : SFile :=
  { zeroFile with Name := n, Version := v }

/-- A slot-version regression: slot 1 announces a@2 and then a@1. -/
def stateC1 : FSet :=
  addRemote 1 [plainFile nmA 1] (setRemote 1 [plainFile nmA 2] initialSet)

/-- A key replaced within a slot: slot 1 announces a@1 and then a@2, so the
(a,1) entry in `files` loses its only referent without being decremented. -/
def stateC4 : FSet :=
  addRemote 1 [plainFile nmA 2] (setRemote 1 [plainFile nmA 1] initialSet)

/-- A live record with content, ingested with version 0 via AddLocal. -/
def fileC3a : SFile :=
  { zeroFile with Name := nmA, Size := 5,
                  Blocks := [{ Offset := 0, Size := 5, Hash := [1] }] }

/-- A second version-0 ingest of the same name. -/
def fileC3b : SFile := { zeroFile with Name := nmA, Size := 7 }

/-- Two AddLocal calls with version-0 records followed by a SetLocal that
drops the name: the synthesised tombstone's key (a,1) collides with the
leaked live (a,1) entry in `files`, so the deletion is lost. -/
def stateC3 : FSet :=
  setLocal (addLocal (addLocal (setLocal initialSet []) [fileC3a]) [fileC3b]) []

/-- Version wraparound in the local slot: a@(2^32-1) then a@0 leaves the
slot key at (a,0). -/
def stateC5 : FSet :=
  addLocal (addLocal (setLocal initialSet []) [plainFile nmA 4294967295])
    [plainFile nmA 0]

/-- A version-0 record sent to a remote slot. -/
def stateC6 : FSet :=
  addRemote 1 [plainFile nmA 0] (setRemote 1 [] initialSet)

/-- Version wraparound on the empty name followed by a setRemote: the
recompute loop matches the zero key, leaving a version-0 global key. -/
def stateC2 : FSet :=
  setRemote 1 []
    (addLocal (addLocal (setLocal initialSet []) [plainFile emptyStr 4294967295])
      [plainFile emptyStr 0])

/-- A list with a duplicated name ingested twice by AddRemote. -/
def stateC10 : FSet :=
  addRemote 1 [plainFile nmA 1, plainFile nmA 2] (setRemote 1 [] initialSet)

/-- The letter used to build fresh connection names. -/
def letterN : String := "n"

/-- The i-th fresh connection name. -/
def freshName (i : Nat) : String := letterN ++ toString i

/-- The connection-ID map after 63 distinct peers connected: together with
the preloaded local slot, all 64 slots are occupied. -/
def cidFull : Cid.Map :=
  (List.range 63).foldl (fun m i => (Cid.get m (freshName i)).1) Cid.NewMap

/-- A concrete node name for the puller counterexample. -/
def nodeX : String := "x"

/-- A second concrete node name for the puller scenarios. -/
def nodeY : String := "y"

/-- A concrete connection-id assignment for the puller scenarios. -/
def cmGetW : String → Nat := fun n => if n = nodeX then 1 else 2

/-- A second concrete file name. -/
def nmB : String := "b"

/-- The literal repository name used on the wire. -/
def repoDefault : String := "default"

/-- A live local record of size 5 for the Request scenarios. -/
def fileC8a : SFile := { zeroFile with Name := nmA, Size := 5, Version := 3 }

/-- A suppressed local record for the Request scenarios. -/
def fileC8b : SFile :=
  { zeroFile with Name := nmB, Size := 5, Version := 3, Suppressed := true }

/-- A local index holding one live and one suppressed record. -/
def stateC8 : FSet := setLocal initialSet [fileC8a, fileC8b]

/-- A concrete disk with five bytes behind the live record's name. -/
def diskC8 : String → Option (List Nat) :=
  fun n => if n = nmA then some [10, 20, 30, 40, 50] else none

/-- A state where slot 1 holds a@1 and slot 2 holds b@2: slot 1 already
has the key (a,1), and the key (b,2) is resident in files but not held by
slot 1. -/
def stateC10w : FSet :=
  addRemote 2 [plainFile nmB 2]
    (setRemote 2 [] (addRemote 1 [plainFile nmA 1] (setRemote 1 [] initialSet)))

/-- The number of peer slots whose current key for fk.Name is exactly fk
(the reference count that files[fk].Usage is meant to track). -/
def refCount (s : FSet) (fk : FKey) : Nat :=
  ((Finset.range 64).filter
    (fun i => mget (s.remoteKey i) fk.Name = some fk)).card

/-- The effect of one setRemote usage decrement on a files entry. -/
def decOneOpt : Option FileRecord → Option FileRecord
  | some br =>
    if br.Usage = 1 then none
    else if 1 < br.Usage then some { Usage := br.Usage - 1, File := br.File }
    else some br
  | none => none

/-- The invariant bundle maintained by every files.Set operation: unique
map keys; slots ≥ 64 empty; slot keys name-consistent and resident in
`files`; stored records name-consistent with usage at least the reference
count; global keys name-consistent, resident, and an upper bound on all
slots' versions for the name; names absent from the global view are held
only at (wrapped) version 0; availability entries exist exactly for global
names, are nonzero, and cover every slot holding the global key. -/
structure INV (s : FSet) : Prop where
  ndFiles : NodupKeys s.files
  ndGlobal : NodupKeys s.globalKey
  ndAvail : NodupKeys s.globalAvailability
  ndSlot : ∀ i, NodupKeys (s.remoteKey i)
  slotHi : ∀ i, 64 ≤ i → s.remoteKey i = []
  slotKey : ∀ i n fk, mget (s.remoteKey i) n = some fk →
    fk.Name = n ∧ ∃ fr, mget s.files fk = some fr
  filesRec : ∀ fk fr, mget s.files fk = some fr →
    fr.File.Name = fk.Name ∧ (refCount s fk : Int) ≤ fr.Usage
  globKey : ∀ n gk, mget s.globalKey n = some gk →
    gk.Name = n ∧ (∃ fr, mget s.files gk = some fr) ∧
    ∀ i fk, mget (s.remoteKey i) n = some fk → fk.Version ≤ gk.Version
  globNone : ∀ n, mget s.globalKey n = none →
    ∀ i fk, mget (s.remoteKey i) n = some fk → fk.Version = 0
  availDom : ∀ n,
    mget s.globalAvailability n = none ↔ mget s.globalKey n = none
  availPos : ∀ n a, mget s.globalAvailability n = some a → a ≠ 0
  availSup : ∀ n gk, mget s.globalKey n = some gk →
    ∀ i, mget (s.remoteKey i) n = some gk →
      Nat.testBit ((mget s.globalAvailability n).getD 0) i

/-- Well-formedness of a connection-ID map, as maintained by the cid
package from NewMap: the name→id entries are unique, point at in-range
slots of the name table holding exactly that (nonempty) name, and every
nonempty slot of the name table has its inverse entry. -/
def CidWF (m : Cid.Map) : Prop :=
  NodupKeys m.toCid ∧
  (∀ p ∈ m.toCid,
    p.2 < m.toName.length ∧ m.toName.get? p.2 = some p.1 ∧ p.1 ≠ emptyStr) ∧
  (∀ i, i < m.toName.length →
    (m.toName.get? i).getD emptyStr ≠ emptyStr →
    mget m.toCid ((m.toName.get? i).getD emptyStr) = some i)

instance (m : Cid.Map) : Decidable (CidWF m) := by
  unfold CidWF
  infer_instance

end SyncSet

namespace SyncSet

theorem mget_mput_self {α β : Type} [DecidableEq α] (m : List (α × β))
    (k : α) (v : β) : mget (mput m k v) k = some v := by
  induction m with
  | nil => simp [mput, mget]
  | cons p t ih =>
    by_cases h : p.1 = k
    · simp [mput, h, mget]
    · simp [mput, h, mget, ih]

theorem mget_mput_ne {α β : Type} [DecidableEq α] (m : List (α × β))
    (k k' : α) (v : β) (h : k' ≠ k) :
    mget (mput m k v) k' = mget m k' := by
  have hk : ¬ (k = k') := fun hh => h hh.symm
  induction m with
  | nil => simp [mput, mget, hk]
  | cons p t ih =>
    by_cases hp : p.1 = k
    · subst hp
      simp [mput, mget, hk]
    · simp [mput, hp, mget, ih]

theorem mget_mdel_ne {α β : Type} [DecidableEq α] (m : List (α × β))
    (k k' : α) (h : k' ≠ k) : mget (mdel m k) k' = mget m k' := by
  have hk : ¬ (k = k') := fun hh => h hh.symm
  induction m with
  | nil => simp [mdel]
  | cons p t ih =>
    by_cases hp : p.1 = k
    · subst hp
      simp [mdel, mget, hk]
    · simp [mdel, hp, mget, ih]

theorem mem_of_mget {α β : Type} [DecidableEq α] {m : List (α × β)}
    {k : α} {v : β} (h : mget m k = some v) : (k, v) ∈ m := by
  induction m with
  | nil => simp [mget] at h
  | cons p t ih =>
    by_cases hp : p.1 = k
    · simp [mget, hp] at h
      subst hp
      subst h
      exact List.mem_cons_self _ _
    · simp [mget, hp] at h
      exact List.mem_cons_of_mem _ (ih h)

theorem mget_of_mem {α β : Type} [DecidableEq α] {m : List (α × β)}
    {k : α} {v : β} (hn : NodupKeys m) (h : (k, v) ∈ m) :
    mget m k = some v := by
  induction m with
  | nil => simp at h
  | cons p t ih =>
    have hcons : p.1 ∉ t.map Prod.fst ∧ (t.map Prod.fst).Nodup := by
      simpa [NodupKeys] using hn
    rcases List.mem_cons.1 h with h1 | h1
    · simp [mget, ← h1]
    · by_cases hp : p.1 = k
      · exfalso
        apply hcons.1
        rw [hp]
        exact List.mem_map_of_mem Prod.fst h1
      · simp only [mget, if_neg hp]
        exact ih hcons.2 h1

theorem mget_eq_none {α β : Type} [DecidableEq α] {m : List (α × β)}
    {k : α} (h : mget m k = none) : ∀ v, (k, v) ∉ m := by
  induction m with
  | nil => simp
  | cons p t ih =>
    by_cases hp : p.1 = k
    · simp [mget, hp] at h
    · simp [mget, hp] at h
      intro v hv
      rcases List.mem_cons.1 hv with h1 | h1
      · exact hp (by rw [← h1])
      · exact ih h v h1

theorem keys_mput_mem {α β : Type} [DecidableEq α] (m : List (α × β))
    (k : α) (v : β) (h : k ∈ m.map Prod.fst) :
    (mput m k v).map Prod.fst = m.map Prod.fst := by
  induction m with
  | nil => simp at h
  | cons p t ih =>
    by_cases hp : p.1 = k
    · simp [mput, hp]
    · have h' : k ∈ t.map Prod.fst := by
        rw [List.map_cons] at h
        rcases List.mem_cons.1 h with h1 | h1
        · exact absurd h1.symm hp
        · exact h1
      simp [mput, hp, ih h']

theorem keys_mput_not_mem {α β : Type} [DecidableEq α] (m : List (α × β))
    (k : α) (v : β) (h : k ∉ m.map Prod.fst) :
    (mput m k v).map Prod.fst = m.map Prod.fst ++ [k] := by
  induction m with
  | nil => simp [mput]
  | cons p t ih =>
    have hp : p.1 ≠ k := by
      intro he
      exact h (by simp [he])
    have h' : k ∉ t.map Prod.fst := by
      intro he
      exact h (by simp [he])
    simp [mput, hp, ih h']

theorem nodupKeys_mput {α β : Type} [DecidableEq α] (m : List (α × β))
    (k : α) (v : β) (hn : NodupKeys m) : NodupKeys (mput m k v) := by
  by_cases h : k ∈ m.map Prod.fst
  · unfold NodupKeys
    rw [keys_mput_mem m k v h]
    exact hn
  · unfold NodupKeys
    rw [keys_mput_not_mem m k v h]
    rw [List.nodup_append]
    refine ⟨hn, List.nodup_singleton k, ?_⟩
    intro a ha hak
    rw [List.mem_singleton] at hak
    exact h (hak ▸ ha)

theorem mdel_sublist {α β : Type} [DecidableEq α] (m : List (α × β))
    (k : α) : (mdel m k).Sublist m := by
  induction m with
  | nil => simp [mdel]
  | cons p t ih =>
    by_cases hp : p.1 = k
    · simp only [mdel, if_pos hp]
      exact List.sublist_cons_self p t
    · simp only [mdel, if_neg hp]
      exact List.Sublist.cons₂ p ih

theorem nodupKeys_mdel {α β : Type} [DecidableEq α] (m : List (α × β))
    (k : α) (hn : NodupKeys m) : NodupKeys (mdel m k) := by
  exact List.Nodup.sublist (List.Sublist.map Prod.fst (mdel_sublist m k)) hn

end SyncSet


namespace SyncSet

/-- C1 counterexample: after `SetRemote 1 [a@2]` followed by
`AddRemote 1 [a@1]` (both legal calls), the global key for "a" is (a,2),
which no slot currently holds — so it is not the maximum among the slots'
current keys for "a" — and availability for "a" still has exactly bit 1
set although slot 1's key (a,1) differs from the global key.  This refutes
the claimed exact global-is-max/availability invariant at a reachable
state. -/
theorem global_not_max_at_stateC1 :
    mget stateC1.globalKey nmA = some { Name := nmA, Version := 2 } ∧
    availabilityS stateC1 nmA = 2 ∧
    mget (stateC1.remoteKey 1) nmA = some { Name := nmA, Version := 1 } ∧
    (∀ i, i < 64 →
      mget (stateC1.remoteKey i) nmA ≠ some { Name := nmA, Version := 2 }) := by
  decide

/-- C4 counterexample: after `SetRemote 1 [a@1]` followed by
`AddRemote 1 [a@2]`, the entry for key (a,1) is still resident in `files`
with usage 1, although no peer slot references (a,1) any more: the usage
count differs from the reference count and the key is not dropped at
reference count zero. -/
theorem usage_overcount_at_stateC4 :
    mget stateC4.files { Name := nmA, Version := 1 } =
      some { Usage := 1, File := plainFile nmA 1 } ∧
    (∀ i, i < 64 →
      mget (stateC4.remoteKey i) nmA ≠ some { Name := nmA, Version := 1 }) := by
  decide

/-- C3: evaluation of the code at the failing input.  After
`SetLocal []; AddLocal [a@0 (size 5, one block)]; AddLocal [a@0];
SetLocal []` the local slot still holds "a" under key (a,1), but the
record visible for it is the original live file — flags 0 (not the deleted
flag, which is nonzero), size 5, nonempty block list — because the
synthesised tombstone was stored under the leaked key (a,1) whose
first-ingested record was kept.  The deletion is silently lost. -/
theorem setLocal_tombstone_lost :
    mget (stateC3.remoteKey 0) nmA = some { Name := nmA, Version := 1 } ∧
    (setGet stateC3 0 nmA).Flags = 0 ∧
    FlagDeleted ≠ 0 ∧
    (setGet stateC3 0 nmA).Size = 5 ∧
    (setGet stateC3 0 nmA).Blocks ≠ [] := by
  decide

/-- C5 counterexample: with the local slot's key at (a,0) — reachable via
uint32 wraparound from a@(2^32-1) followed by a@0 — a further
`AddLocal [a@0]` is skipped by the already-has-this-key test, so the
stored version stays 0 instead of becoming the previous version plus
one. -/
theorem addLocal_zero_version_skipped :
    mget (stateC5.remoteKey 0) nmA = some { Name := nmA, Version := 0 } ∧
    mget ((addLocal stateC5 [plainFile nmA 0]).remoteKey 0) nmA =
      some { Name := nmA, Version := 0 } ∧
    (0 : Nat) + 1 ≠ 0 := by
  decide

/-- C6 counterexample: `AddRemote 1 [a@0]` stores the key (a,1), not
(a,0): the version-0 rewrite of the shared addRemote primitive applies to
remote slots as well, so remote records are not installed exactly as
given. -/
theorem addRemote_rewrites_zero_version :
    mget (stateC6.remoteKey 1) nmA = some { Name := nmA, Version := 1 } ∧
    ({ Name := nmA, Version := 1 } : FKey) ≠ { Name := nmA, Version := 0 } := by
  decide

/-- C2 counterexample: at `stateC2` the global key for the empty name is
("",0) with its record resident in `files`, and slot 1 holds no key for
that name, yet `Need 1` is empty — because `newerThan` compares the
version-0 global key against the zero key of the missing slot entry and
0 > 0 fails.  The claimed equivalence (global exists and slot holds no
key ⇒ the record is needed) is false at this reachable state. -/
theorem need_soundness_fails_at_stateC2 :
    mget stateC2.globalKey emptyStr = some { Name := emptyStr, Version := 0 } ∧
    mget stateC2.files { Name := emptyStr, Version := 0 } =
      some { Usage := 1, File := plainFile emptyStr 0 } ∧
    mget (stateC2.remoteKey 1) emptyStr = none ∧
    needS stateC2 1 = [] := by
  decide

/-- C10 counterexample: `AddRemote 1 l` with l = [a@1, a@2] applied twice
is not the same as applying it once: the second pass re-ingests a@1 (the
slot meanwhile points at (a,2)), bumping the usage of (a,1) from 1 to 2.
Idempotence fails for lists whose records repeat a name. -/
theorem addRemote_twice_differs :
    mget stateC10.files { Name := nmA, Version := 1 } =
      some { Usage := 1, File := plainFile nmA 1 } ∧
    mget (addRemote 1 [plainFile nmA 1, plainFile nmA 2] stateC10).files
        { Name := nmA, Version := 1 } =
      some { Usage := 2, File := plainFile nmA 1 } := by
  decide

set_option maxRecDepth 4000 in
/-- C7 counterexample: from NewMap, 63 Gets of distinct fresh names fill
all 64 slots (none free), and a Get for one more new name returns id 64 —
it neither panics nor stays within 0..63.  The 64-slot cap is not enforced
by the connection-ID map. -/
theorem cid_get_returns_64 :
    cidFull.toName.length = 64 ∧
    (∀ i, i < 64 → cidFull.toName.getD i emptyStr ≠ emptyStr) ∧
    (Cid.get cidFull (freshName 63)).2 = 64 := by
  decide

/-- C9 counterexample: with availability bitset 0 nothing qualifies, yet
leastBusyNode still "selects" the empty name — which is not a node of the
counts map — and creates and increments an outstanding counter for it.
The claim's universal statement fails when no connected node's bit is
set. -/
theorem leastBusyNode_no_candidate :
    (SyncModel.leastBusyNode [(nodeX, 0)] (fun _ => 1) 0).1 = emptyStr ∧
    mget [(nodeX, (0 : Int))] emptyStr = none ∧
    mget (SyncModel.leastBusyNode [(nodeX, 0)] (fun _ => 1) 0).2 emptyStr =
      some 1 := by
  decide

end SyncSet

namespace SyncSet

theorem addRemote_cons (cid : Nat) (f : SFile) (t : List SFile) (s : FSet) :
    addRemote cid (f :: t) s = addRemote cid t (addRemoteOne cid s f) := rfl

theorem addRemote_append_one (cid : Nat) (fs1 : List SFile) (r : SFile)
    (s : FSet) :
    addRemote cid (fs1 ++ [r]) s = addRemoteOne cid (addRemote cid fs1 s) r := by
  simp [addRemote, List.foldl_append]

theorem addRemoteOne_skip (cid : Nat) (s : FSet) (f : SFile)
    (h : mget (s.remoteKey cid) f.Name = some (keyFor f)) :
    addRemoteOne cid s f = s := by
  simp [addRemoteOne, h]

theorem addRemoteOne_remoteKey_eq (cid : Nat) (s : FSet) (f : SFile)
    (hskip : ¬ mget (s.remoteKey cid) f.Name = some (keyFor f)) (c : Nat) :
    (addRemoteOne cid s f).remoteKey c =
      if c = cid then mput (s.remoteKey cid) f.Name (addRemoteOneKey cid s f)
      else s.remoteKey c := by
  simp [addRemoteOne, hskip]

theorem addRemoteOne_files_eq (cid : Nat) (s : FSet) (f : SFile)
    (hskip : ¬ mget (s.remoteKey cid) f.Name = some (keyFor f)) :
    (addRemoteOne cid s f).files =
      addRemoteFiles s (addRemoteOneKey cid s f) f := by
  simp [addRemoteOne, hskip]

theorem addRemoteOne_global_eq (cid : Nat) (s : FSet) (f : SFile)
    (hskip : ¬ mget (s.remoteKey cid) f.Name = some (keyFor f)) :
    (addRemoteOne cid s f).globalKey =
      (addRemoteGlobal cid s f.Name (addRemoteOneKey cid s f)).1 ∧
    (addRemoteOne cid s f).globalAvailability =
      (addRemoteGlobal cid s f.Name (addRemoteOneKey cid s f)).2 := by
  constructor <;> simp [addRemoteOne, hskip]

theorem addRemoteOneKey_name (cid : Nat) (s : FSet) (f : SFile) :
    (addRemoteOneKey cid s f).Name = f.Name := by
  by_cases hv : f.Version = 0 <;> simp [addRemoteOneKey, hv, keyFor]

theorem mget_addRemoteOne_self (cid : Nat) (s : FSet) (f : SFile) :
    mget ((addRemoteOne cid s f).remoteKey cid) f.Name =
      some (if mget (s.remoteKey cid) f.Name = some (keyFor f) then keyFor f
        else addRemoteOneKey cid s f) := by
  by_cases hskip : mget (s.remoteKey cid) f.Name = some (keyFor f)
  · simp [addRemoteOne, hskip]
  · rw [addRemoteOne_remoteKey_eq cid s f hskip cid, if_pos rfl,
      mget_mput_self, if_neg hskip]

theorem mget_addRemoteOne_ne (cid i : Nat) (s : FSet) (f : SFile)
    (n : String) (h : f.Name ≠ n) :
    mget ((addRemoteOne cid s f).remoteKey i) n = mget (s.remoteKey i) n := by
  by_cases hskip : mget (s.remoteKey cid) f.Name = some (keyFor f)
  · simp [addRemoteOne, hskip]
  · rw [addRemoteOne_remoteKey_eq cid s f hskip i]
    by_cases hi : i = cid
    · subst hi
      rw [if_pos rfl, mget_mput_ne _ _ _ _ (fun hh => h hh.symm)]
    · rw [if_neg hi]

theorem mget_addRemote_not_mem (cid i : Nat) (s : FSet) (l : List SFile)
    (n : String) (h : ∀ f ∈ l, f.Name ≠ n) :
    mget ((addRemote cid l s).remoteKey i) n = mget (s.remoteKey i) n := by
  induction l generalizing s with
  | nil => rfl
  | cons f t ih =>
    rw [addRemote_cons, ih _ (fun g hg => h g (List.mem_cons_of_mem f hg)),
      mget_addRemoteOne_ne cid i s f n (h f (List.mem_cons_self f t))]

theorem addRemote_holds_keys (cid : Nat) (s : FSet) (l : List SFile)
    (hn : (l.map SFile.Name).Nodup) (hv : ∀ f ∈ l, f.Version ≠ 0) :
    ∀ f ∈ l, mget ((addRemote cid l s).remoteKey cid) f.Name =
      some (keyFor f) := by
  induction l generalizing s with
  | nil => simp
  | cons g t ih =>
    intro f hf
    rw [List.map_cons, List.nodup_cons] at hn
    rcases List.mem_cons.1 hf with h1 | h1
    · subst h1
      rw [addRemote_cons]
      rw [mget_addRemote_not_mem cid cid _ t f.Name ?_]
      · rw [mget_addRemoteOne_self cid s f]
        have hfv := hv f (List.mem_cons_self f t)
        have hk : addRemoteOneKey cid s f = keyFor f := by
          simp [addRemoteOneKey, keyFor, hfv]
        rw [hk, ite_self]
      · intro g hg he
        exact hn.1 (he ▸ List.mem_map_of_mem SFile.Name hg)
    · rw [addRemote_cons]
      exact ih (addRemoteOne cid s g) hn.2
        (fun f' hf' => hv f' (List.mem_cons_of_mem g hf')) f h1

theorem addRemote_all_skip (cid : Nat) (s : FSet) (l : List SFile)
    (h : ∀ f ∈ l, mget (s.remoteKey cid) f.Name = some (keyFor f)) :
    addRemote cid l s = s := by
  induction l with
  | nil => rfl
  | cons f t ih =>
    rw [addRemote_cons, addRemoteOne_skip cid s f (h f (List.mem_cons_self f t))]
    exact ih (fun g hg => h g (List.mem_cons_of_mem f hg))

theorem mget_files_addRemoteOne (cid : Nat) (s : FSet) (f : SFile)
    (fk' : FKey) (fr' : FileRecord)
    (h : mget (addRemoteOne cid s f).files fk' = some fr') :
    fr'.File = f ∨
      ∃ fr0, mget s.files fk' = some fr0 ∧ fr'.File = fr0.File := by
  by_cases hskip : mget (s.remoteKey cid) f.Name = some (keyFor f)
  · rw [addRemoteOne_skip cid s f hskip] at h
    exact Or.inr ⟨fr', h, rfl⟩
  · rw [addRemoteOne_files_eq cid s f hskip] at h
    unfold addRemoteFiles at h
    rcases hbr : mget s.files (addRemoteOneKey cid s f) with _ | br
    · rw [hbr] at h
      by_cases hk : fk' = addRemoteOneKey cid s f
      · subst hk
        rw [mget_mput_self] at h
        injection h with h
        exact Or.inl (by rw [← h])
      · rw [mget_mput_ne _ _ _ _ hk] at h
        exact Or.inr ⟨fr', h, rfl⟩
    · rw [hbr] at h
      by_cases hk : fk' = addRemoteOneKey cid s f
      · subst hk
        rw [mget_mput_self] at h
        injection h with h
        exact Or.inr ⟨br, hbr, by rw [← h]⟩
      · rw [mget_mput_ne _ _ _ _ hk] at h
        exact Or.inr ⟨fr', h, rfl⟩

theorem mget_files_addRemote (cid : Nat) (s : FSet) (l : List SFile)
    (fk' : FKey) (fr' : FileRecord)
    (h : mget (addRemote cid l s).files fk' = some fr') :
    (∃ f ∈ l, fr'.File = f) ∨
      ∃ fr0, mget s.files fk' = some fr0 ∧ fr'.File = fr0.File := by
  induction l generalizing s with
  | nil => exact Or.inr ⟨fr', h, rfl⟩
  | cons g t ih =>
    rw [addRemote_cons] at h
    rcases ih (addRemoteOne cid s g) h with h1 | ⟨fr0, h1, h2⟩
    · rcases h1 with ⟨f, hf, he⟩
      exact Or.inl ⟨f, List.mem_cons_of_mem g hf, he⟩
    · rcases mget_files_addRemoteOne cid s g fk' fr0 h1 with h3 | ⟨fr1, h3, h4⟩
      · exact Or.inl ⟨g, List.mem_cons_self g t, h2.trans h3⟩
      · exact Or.inr ⟨fr1, h3, h2.trans h4⟩

end SyncSet

namespace SyncSet

/-- C5 (amended): for every record r in the list given to AddLocal — here
the record at any position, with the prefix before it already processed —
the version stored for r.Name in the local slot is exactly r.Version when
that is nonzero; when r.Version is 0 it becomes the local slot's previous
version for the name plus one in uint32 arithmetic (hence 1 when the name
was previously absent), except that a record whose key coincides with the
slot's current key (r.Name, 0) — reachable only after uint32 wraparound —
is skipped and the stored version stays 0. -/
theorem addLocal_version_rule (s : FSet) (fs1 : List SFile) (r : SFile) :
    mget ((addLocal s (fs1 ++ [r])).remoteKey 0) r.Name =
      some { Name := r.Name,
             Version :=
               if r.Version ≠ 0 then r.Version
               else
                 match mget ((addLocal s fs1).remoteKey 0) r.Name with
                 | some ck =>
                   if ck = { Name := r.Name, Version := 0 } then 0
                   else u32 (ck.Version + 1)
                 | none => 1 } := by
  rw [addLocal, addLocal, addRemote_append_one]
  rw [mget_addRemoteOne_self 0 (addRemote 0 fs1 s) r]
  by_cases hv : r.Version = 0
  · simp only [hv, ne_eq, not_true_eq_false, if_false]
    by_cases hskip :
        mget ((addRemote 0 fs1 s).remoteKey 0) r.Name = some (keyFor r)
    · rw [if_pos hskip, hskip]
      simp [keyFor, hv]
    · rw [if_neg hskip]
      rcases hck : mget ((addRemote 0 fs1 s).remoteKey 0) r.Name with _ | ck
      · simp [addRemoteOneKey, keyFor, hv, hck, zeroKey, u32]
      · have hne : ¬ ck = { Name := r.Name, Version := 0 } := by
          intro he
          apply hskip
          rw [hck, he]
          simp [keyFor, hv]
        simp [addRemoteOneKey, keyFor, hv, hck, hne]
  · simp only [hv, ne_eq, not_false_eq_true, if_true]
    have hk : addRemoteOneKey 0 (addRemote 0 fs1 s) r = keyFor r := by
      simp [addRemoteOneKey, keyFor, hv]
    rw [hk, ite_self]
    simp [keyFor]

/-- C6 (amended): AddRemote and SetRemote on slots 1..63 go through the
same internal primitive as the local operations.  A record with nonzero
version has its (name, version) key installed exactly as given; a record
with version 0 has its key version rewritten to the slot's previous
version for the name plus one (uint32) — it is not stored under version
0 — unless the slot's current key is exactly (name, 0), which is skipped;
and the stored file structs are never altered: every record in `files`
after the call is either one of the incoming structs verbatim or a
previously stored struct. -/
theorem addRemote_key_rule (s : FSet) (cid : Nat) (fs1 : List SFile)
    (r : SFile) (l : List SFile) (h1 : 1 ≤ cid) (h63 : cid ≤ 63) :
    (mget ((addRemote cid (fs1 ++ [r]) s).remoteKey cid) r.Name =
      some { Name := r.Name,
             Version :=
               if r.Version ≠ 0 then r.Version
               else
                 match mget ((addRemote cid fs1 s).remoteKey cid) r.Name with
                 | some ck =>
                   if ck = { Name := r.Name, Version := 0 } then 0
                   else u32 (ck.Version + 1)
                 | none => 1 }) ∧
    (∀ fk' fr', mget (addRemote cid l s).files fk' = some fr' →
      (∃ f ∈ l, fr'.File = f) ∨
        ∃ fr0, mget s.files fk' = some fr0 ∧ fr'.File = fr0.File) := by
  constructor
  · rw [addRemote_append_one]
    rw [mget_addRemoteOne_self cid (addRemote cid fs1 s) r]
    by_cases hv : r.Version = 0
    · simp only [hv, ne_eq, not_true_eq_false, if_false]
      by_cases hskip :
          mget ((addRemote cid fs1 s).remoteKey cid) r.Name = some (keyFor r)
      · rw [if_pos hskip, hskip]
        simp [keyFor, hv]
      · rw [if_neg hskip]
        rcases hck : mget ((addRemote cid fs1 s).remoteKey cid) r.Name
          with _ | ck
        · simp [addRemoteOneKey, keyFor, hv, hck, zeroKey, u32]
        · have hne : ¬ ck = { Name := r.Name, Version := 0 } := by
            intro he
            apply hskip
            rw [hck, he]
            simp [keyFor, hv]
          simp [addRemoteOneKey, keyFor, hv, hck, hne]
    · simp only [hv, ne_eq, not_false_eq_true, if_true]
      have hk : addRemoteOneKey cid (addRemote cid fs1 s) r = keyFor r := by
        simp [addRemoteOneKey, keyFor, hv]
      rw [hk, ite_self]
      simp [keyFor]
  · intro fk' fr' h
    exact mget_files_addRemote cid s l fk' fr' h

/-- C10 (amended): re-ingesting an already-held key is a complete no-op;
AddRemote applied twice with one list equals applying it once provided the
list's records carry nonzero versions and pairwise-distinct names; and a
record with nonzero version arriving for a (name, version) key already in
`files` from a slot that does not currently hold that key changes the
files entry only by incrementing its usage count — the first-ingested
record's contents are kept. -/
theorem addRemote_reingest_rules :
    (∀ (s : FSet) (cid : Nat) (f : SFile),
      mget (s.remoteKey cid) f.Name = some (keyFor f) →
      addRemote cid [f] s = s) ∧
    (∀ (s : FSet) (cid : Nat) (l : List SFile),
      (l.map SFile.Name).Nodup → (∀ f ∈ l, f.Version ≠ 0) →
      addRemote cid l (addRemote cid l s) = addRemote cid l s) ∧
    (∀ (s : FSet) (cid : Nat) (f : SFile) (fr : FileRecord),
      f.Version ≠ 0 → ¬ mget (s.remoteKey cid) f.Name = some (keyFor f) →
      mget s.files (keyFor f) = some fr →
      mget (addRemote cid [f] s).files (keyFor f) =
        some { Usage := fr.Usage + 1, File := fr.File }) := by
  refine ⟨?_, ?_, ?_⟩
  · intro s cid f h
    show addRemoteOne cid s f = s
    exact addRemoteOne_skip cid s f h
  · intro s cid l hn hv
    exact addRemote_all_skip cid (addRemote cid l s) l
      (addRemote_holds_keys cid s l hn hv)
  · intro s cid f fr hv hskip hfr
    show mget (addRemoteOne cid s f).files (keyFor f) = _
    have hk : addRemoteOneKey cid s f = keyFor f := by
      simp [addRemoteOneKey, keyFor, hv]
    rw [addRemoteOne_files_eq cid s f hskip]
    unfold addRemoteFiles
    rw [hk, hfr, mget_mput_self]

/-- C10 witness: the rules applied at a concrete state — slot 1 holds
(a,1); re-adding a@1 is a no-op; the two-element distinct-name list is
idempotent; b@2 arriving for a key held in files only by slot 2 bumps the
usage and keeps the stored struct. -/
theorem addRemote_reingest_rules_witness :
    addRemote 1 [plainFile nmA 1] stateC10w = stateC10w ∧
    addRemote 1 [plainFile nmA 1, plainFile nmB 2]
        (addRemote 1 [plainFile nmA 1, plainFile nmB 2] stateC10w) =
      addRemote 1 [plainFile nmA 1, plainFile nmB 2] stateC10w ∧
    mget (addRemote 1 [plainFile nmB 2] stateC10w).files
        (keyFor (plainFile nmB 2)) =
      some { Usage := (1 : Int) + 1, File := plainFile nmB 2 } := by
  refine ⟨addRemote_reingest_rules.1 stateC10w 1 (plainFile nmA 1) (by decide),
    addRemote_reingest_rules.2.1 stateC10w 1 [plainFile nmA 1, plainFile nmB 2]
      (by decide) (by decide),
    ?_⟩
  have h := addRemote_reingest_rules.2.2 stateC10w 1 (plainFile nmB 2)
    { Usage := 1, File := plainFile nmB 2 } (by decide) (by decide) (by decide)
  exact h

end SyncSet

namespace SyncSet

/-- C6 witness: the key rule applied at a concrete input — a@5 sent to
slot 1 is installed exactly as (a,5), and the only files entry after the
call is the incoming struct itself. -/
theorem addRemote_key_rule_witness :
    mget ((addRemote 1 ([] ++ [plainFile nmA 5])
        (setRemote 1 [] initialSet)).remoteKey 1) (plainFile nmA 5).Name =
      some { Name := nmA, Version := 5 } ∧
    ((∃ f ∈ [plainFile nmA 5],
        ({ Usage := 1, File := plainFile nmA 5 } : FileRecord).File = f) ∨
      ∃ fr0, mget (setRemote 1 [] initialSet).files
          (keyFor (plainFile nmA 5)) = some fr0 ∧
        ({ Usage := 1, File := plainFile nmA 5 } : FileRecord).File =
          fr0.File) := by
  have h := addRemote_key_rule (setRemote 1 [] initialSet) 1 []
    (plainFile nmA 5) [plainFile nmA 5] (by decide) (by decide)
  constructor
  · rw [h.1]
    decide
  · exact h.2 (keyFor (plainFile nmA 5))
      { Usage := 1, File := plainFile nmA 5 } (by decide)

/-- C8: the guard structure of Model.Request.  A request whose offset
exceeds the size of the record the local slot holds for the name (the
zero record when the name is absent) is refused with ErrNoSuchFile; an
in-range request for a suppressed record is refused with ErrInvalid; any
other request is served by reading the segment from local disk. -/
theorem request_guards (s : FSet) (disk : String → Option (List Nat))
    (nodeID repo name : String) (offset size : Int) :
    ((setGet s Cid.LocalID name).Size < offset →
      SyncModel.request s disk nodeID repo name offset size =
        Except.error SyncModel.ReqError.noSuchFile) ∧
    (offset ≤ (setGet s Cid.LocalID name).Size →
      (setGet s Cid.LocalID name).Suppressed = true →
      SyncModel.request s disk nodeID repo name offset size =
        Except.error SyncModel.ReqError.invalid) ∧
    (offset ≤ (setGet s Cid.LocalID name).Size →
      (setGet s Cid.LocalID name).Suppressed = false →
      SyncModel.request s disk nodeID repo name offset size =
        SyncModel.readSegment disk name offset size) := by
  refine ⟨?_, ?_, ?_⟩
  · intro h
    simp [SyncModel.request, h]
  · intro h1 h2
    simp [SyncModel.request, not_lt.2 h1, h2]
  · intro h1 h2
    simp [SyncModel.request, not_lt.2 h1, h2]

/-- C8 witness: against a local index holding a live a (size 5) and a
suppressed b, an offset-9 request for a is refused with ErrNoSuchFile, an
in-range request for b is refused with ErrInvalid, and an in-range request
for a is served from disk. -/
theorem request_guards_witness :
    SyncModel.request stateC8 diskC8 Cid.LocalName repoDefault nmA 9 1 =
      Except.error SyncModel.ReqError.noSuchFile ∧
    SyncModel.request stateC8 diskC8 Cid.LocalName repoDefault nmB 0 2 =
      Except.error SyncModel.ReqError.invalid ∧
    SyncModel.request stateC8 diskC8 Cid.LocalName repoDefault nmA 1 2 =
      SyncModel.readSegment diskC8 nmA 1 2 := by
  refine ⟨(request_guards stateC8 diskC8 Cid.LocalName repoDefault nmA 9 1).1
      (by decide),
    (request_guards stateC8 diskC8 Cid.LocalName repoDefault nmB 0 2).2.1
      (by decide) (by decide),
    (request_guards stateC8 diskC8 Cid.LocalName repoDefault nmA 1 2).2.2
      (by decide) (by decide)⟩

end SyncSet

namespace SyncSet

theorem lbnStep_fold_spec (cmGet : String → Nat) (availability : Nat) :
    ∀ (l : List (String × Int)) (low : Int) (sel : String),
      (l.foldl (SyncModel.lbnStep cmGet availability) (low, sel) = (low, sel) ∧
        ∀ nu ∈ l, availability &&& (1 <<< cmGet nu.1) ≠ 0 → low ≤ nu.2) ∨
      (∃ l1 nu l2, l = l1 ++ nu :: l2 ∧
        availability &&& (1 <<< cmGet nu.1) ≠ 0 ∧
        l.foldl (SyncModel.lbnStep cmGet availability) (low, sel) =
          (nu.2, nu.1) ∧
        nu.2 < low ∧
        (∀ mu ∈ l1, availability &&& (1 <<< cmGet mu.1) ≠ 0 → nu.2 < mu.2) ∧
        (∀ mu ∈ l2, availability &&& (1 <<< cmGet mu.1) ≠ 0 → nu.2 ≤ mu.2)) := by
  intro l
  induction l with
  | nil =>
    intro low sel
    exact Or.inl ⟨rfl, by simp⟩
  | cons nu0 t ih =>
    intro low sel
    by_cases hc : availability &&& (1 <<< cmGet nu0.1) ≠ 0
    · by_cases hlt : nu0.2 < low
      · have hfold : (nu0 :: t).foldl (SyncModel.lbnStep cmGet availability)
            (low, sel) =
            t.foldl (SyncModel.lbnStep cmGet availability) (nu0.2, nu0.1) := by
          rw [List.foldl_cons]
          congr 1
          simp [SyncModel.lbnStep, hc, hlt]
        rcases ih nu0.2 nu0.1 with ⟨heq, hall⟩ |
          ⟨l1, nu, l2, hsplit, hcand, hfold2, hlt2, h1, h2⟩
        · exact Or.inr ⟨[], nu0, t, by simp, hc, by rw [hfold, heq], hlt,
            by simp, hall⟩
        · refine Or.inr ⟨nu0 :: l1, nu, l2, by rw [hsplit]; rfl, hcand,
            by rw [hfold, hfold2], lt_trans hlt2 hlt, ?_, h2⟩
          intro mu hmu hmc
          rcases List.mem_cons.1 hmu with h3 | h3
          · rw [h3]
            exact hlt2
          · exact h1 mu h3 hmc
      · have hfold : (nu0 :: t).foldl (SyncModel.lbnStep cmGet availability)
            (low, sel) =
            t.foldl (SyncModel.lbnStep cmGet availability) (low, sel) := by
          rw [List.foldl_cons]
          congr 1
          simp [SyncModel.lbnStep, hc, hlt]
        rcases ih low sel with ⟨heq, hall⟩ |
          ⟨l1, nu, l2, hsplit, hcand, hfold2, hlt2, h1, h2⟩
        · refine Or.inl ⟨by rw [hfold, heq], ?_⟩
          intro nu hn hcn
          rcases List.mem_cons.1 hn with h3 | h3
          · rw [h3]
            exact le_of_not_lt hlt
          · exact hall nu h3 hcn
        · refine Or.inr ⟨nu0 :: l1, nu, l2, by rw [hsplit]; rfl, hcand,
            by rw [hfold, hfold2], hlt2, ?_, h2⟩
          intro mu hmu hmc
          rcases List.mem_cons.1 hmu with h3 | h3
          · rw [h3]
            exact lt_of_lt_of_le hlt2 (le_of_not_lt hlt)
          · exact h1 mu h3 hmc
    · have hfold : (nu0 :: t).foldl (SyncModel.lbnStep cmGet availability)
          (low, sel) =
          t.foldl (SyncModel.lbnStep cmGet availability) (low, sel) := by
        rw [List.foldl_cons]
        congr 1
        simp [SyncModel.lbnStep, hc]
      rcases ih low sel with ⟨heq, hall⟩ |
        ⟨l1, nu, l2, hsplit, hcand, hfold2, hlt2, h1, h2⟩
      · refine Or.inl ⟨by rw [hfold, heq], ?_⟩
        intro nu hn hcn
        rcases List.mem_cons.1 hn with h3 | h3
        · rw [h3] at hcn
          exact absurd hcn hc
        · exact hall nu h3 hcn
      · refine Or.inr ⟨nu0 :: l1, nu, l2, by rw [hsplit]; rfl, hcand,
          by rw [hfold, hfold2], hlt2, ?_, h2⟩
        intro mu hmu hmc
        rcases List.mem_cons.1 hmu with h3 | h3
        · rw [h3] at hmc
          exact absurd hmc hc
        · exact h1 mu h3 hmc

/-- C9 (amended): whenever at least one node of the outstanding-counts map
has its connection-id bit set in the availability bitset (and all counts
are below the 2^64-1 initialiser, as int64 values always are),
leastBusyNode selects a node whose bit is set and whose count is minimal
among all such nodes, it is the first such node in iteration order (every
earlier qualifying node has a strictly larger count), and dispatch
increments exactly that node's count by one, leaving every other count
unchanged. -/
theorem leastBusyNode_selects_min (counts : List (String × Int))
    (cmGet : String → Nat) (availability : Nat)
    (hnodup : NodupKeys counts)
    (hrange : ∀ nu ∈ counts, nu.2 < 18446744073709551615)
    (hex : ∃ nu ∈ counts, availability &&& (1 <<< cmGet nu.1) ≠ 0) :
    ∃ u : Int,
      availability &&&
        (1 <<< cmGet (SyncModel.leastBusyNode counts cmGet availability).1) ≠ 0 ∧
      mget counts (SyncModel.leastBusyNode counts cmGet availability).1 =
        some u ∧
      (∀ nu ∈ counts, availability &&& (1 <<< cmGet nu.1) ≠ 0 → u ≤ nu.2) ∧
      (∃ l1 l2,
        counts = l1 ++
          ((SyncModel.leastBusyNode counts cmGet availability).1, u) :: l2 ∧
        ∀ mu ∈ l1, availability &&& (1 <<< cmGet mu.1) ≠ 0 → u < mu.2) ∧
      mget (SyncModel.leastBusyNode counts cmGet availability).2
          (SyncModel.leastBusyNode counts cmGet availability).1 =
        some (u + 1) ∧
      (∀ n2, n2 ≠ (SyncModel.leastBusyNode counts cmGet availability).1 →
        mget (SyncModel.leastBusyNode counts cmGet availability).2 n2 =
          mget counts n2) := by
  rcases lbnStep_fold_spec cmGet availability counts 18446744073709551615
      emptyStr with ⟨_, hall⟩ |
    ⟨l1, nu, l2, hsplit, hcand, hfold, _, h1, h2⟩
  · exfalso
    rcases hex with ⟨nu, hmem, hcn⟩
    exact absurd (hall nu hmem hcn) (not_le.2 (hrange nu hmem))
  · rw [show emptyStr = ("" : String) from rfl] at hfold
    have hsel : (SyncModel.leastBusyNode counts cmGet availability).1 = nu.1 := by
      simp [SyncModel.leastBusyNode, hfold]
    have hmemnu : (nu.1, nu.2) ∈ counts := by
      rw [hsplit]
      exact List.mem_append_right l1 (List.mem_cons_self _ _)
    have hgetnu : mget counts nu.1 = some nu.2 := mget_of_mem hnodup hmemnu
    refine ⟨nu.2, ?_, ?_, ?_, ?_, ?_, ?_⟩
    · rw [hsel]
      exact hcand
    · rw [hsel]
      exact hgetnu
    · intro mu hmu hmc
      rw [hsplit] at hmu
      rcases List.mem_append.1 hmu with h3 | h3
      · exact le_of_lt (h1 mu h3 hmc)
      · rcases List.mem_cons.1 h3 with h4 | h4
        · rw [h4]
        · exact h2 mu h4 hmc
    · refine ⟨l1, l2, ?_, ?_⟩
      · rw [hsel, hsplit]
      · intro mu hmu hmc
        exact h1 mu hmu hmc
    · have : (SyncModel.leastBusyNode counts cmGet availability).2 =
          mput counts nu.1 (nu.2 + 1) := by
        simp [SyncModel.leastBusyNode, hfold, hgetnu]
      rw [this, hsel, mget_mput_self]
    · intro n2 hn2
      have : (SyncModel.leastBusyNode counts cmGet availability).2 =
          mput counts nu.1 (nu.2 + 1) := by
        simp [SyncModel.leastBusyNode, hfold, hgetnu]
      rw [this, mget_mput_ne _ _ _ _ (hsel ▸ hn2)]

/-- C9 witness: two nodes hold the block (bits 1 and 2 set in
availability 6); node y has 1 outstanding against node x's 3, so y is
selected and its counter becomes 2, x's stays 3. -/
theorem leastBusyNode_selects_min_witness :
    ∃ u : Int,
      (6 : Nat) &&& (1 <<< cmGetW
        (SyncModel.leastBusyNode [(nodeX, 3), (nodeY, 1)] cmGetW 6).1) ≠ 0 ∧
      mget [(nodeX, (3 : Int)), (nodeY, 1)]
        (SyncModel.leastBusyNode [(nodeX, 3), (nodeY, 1)] cmGetW 6).1 =
        some u ∧
      (∀ nu ∈ [(nodeX, (3 : Int)), (nodeY, 1)],
        (6 : Nat) &&& (1 <<< cmGetW nu.1) ≠ 0 → u ≤ nu.2) ∧
      (∃ l1 l2,
        [(nodeX, (3 : Int)), (nodeY, 1)] = l1 ++
          ((SyncModel.leastBusyNode [(nodeX, 3), (nodeY, 1)] cmGetW 6).1, u)
            :: l2 ∧
        ∀ mu ∈ l1, (6 : Nat) &&& (1 <<< cmGetW mu.1) ≠ 0 → u < mu.2) ∧
      mget (SyncModel.leastBusyNode [(nodeX, 3), (nodeY, 1)] cmGetW 6).2
          (SyncModel.leastBusyNode [(nodeX, 3), (nodeY, 1)] cmGetW 6).1 =
        some (u + 1) ∧
      (∀ n2, n2 ≠ (SyncModel.leastBusyNode [(nodeX, 3), (nodeY, 1)] cmGetW 6).1 →
        mget (SyncModel.leastBusyNode [(nodeX, 3), (nodeY, 1)] cmGetW 6).2 n2 =
          mget [(nodeX, (3 : Int)), (nodeY, 1)] n2) :=
  leastBusyNode_selects_min [(nodeX, 3), (nodeY, 1)] cmGetW 6
    (by decide) (by decide) ⟨(nodeY, 1), by decide, by decide⟩

end SyncSet

namespace SyncSet

theorem mem_mput {α β : Type} [DecidableEq α] {m : List (α × β)} {k : α}
    {v : β} {p : α × β} (h : p ∈ mput m k v) : p = (k, v) ∨ p ∈ m := by
  induction m with
  | nil => simpa [mput] using h
  | cons q t ih =>
    by_cases hq : q.1 = k
    · simp only [mput, if_pos hq] at h
      rcases List.mem_cons.1 h with h1 | h1
      · exact Or.inl h1
      · exact Or.inr (List.mem_cons_of_mem q h1)
    · simp only [mput, if_neg hq] at h
      rcases List.mem_cons.1 h with h1 | h1
      · exact Or.inr (h1 ▸ List.mem_cons_self q t)
      · rcases ih h1 with h2 | h2
        · exact Or.inl h2
        · exact Or.inr (List.mem_cons_of_mem q h2)

theorem findFree_spec :
    ∀ (l : List String) (j i : Nat), Cid.findFree l j = some i →
      ∃ k, i = j + k ∧ k < l.length ∧ l.get? k = some emptyStr := by
  intro l
  induction l with
  | nil =>
    intro j i h
    simp [Cid.findFree] at h
  | cons s t ih =>
    intro j i h
    by_cases hs : s = ""
    · simp only [Cid.findFree, if_pos hs] at h
      injection h with h
      exact ⟨0, by omega, by simp, by simp [hs, emptyStr]⟩
    · simp only [Cid.findFree, if_neg hs] at h
      rcases ih (j + 1) i h with ⟨k, hk1, hk2, hk3⟩
      refine ⟨k + 1, by omega, by simpa using Nat.succ_lt_succ hk2, ?_⟩
      simpa using hk3

/-- C7 (amended): on a well-formed connection-ID map, Get never panics and
returns the existing id for a known name, the lowest free slot, or a
freshly appended slot: the returned id is bounded only by the number of
slots already allocated (id ≤ len(toName)), not by 63; the returned id's
slot holds the name afterwards, and well-formedness is preserved.  The
64-slot cap of the claim is not enforced here: a 65th distinct name gets
id 64 (see the counterexample). -/
theorem cid_get_spec (m : Cid.Map) (name : String) (hwf : CidWF m)
    (hne : name ≠ emptyStr) :
    (Cid.get m name).2 ≤ m.toName.length ∧
    (Cid.get m name).1.toName.get? (Cid.get m name).2 = some name ∧
    CidWF (Cid.get m name).1 := by
  rcases hwf with ⟨hnd, hfwd, hbwd⟩
  rcases hc : mget m.toCid name with _ | c
  · rcases hf : Cid.findFree m.toName 0 with _ | i
    · -- no free slot: append at the end
      have hget : Cid.get m name =
          ({ toCid := mput m.toCid name m.toName.length,
             toName := m.toName ++ [name] }, m.toName.length) := by
        simp [Cid.get, hc, hf]
      rw [hget]
      refine ⟨le_refl _, List.get?_concat_length _ _,
        nodupKeys_mput _ _ _ hnd, ?_, ?_⟩
      · intro p hp
        rcases mem_mput hp with h1 | h1
        · subst h1
          refine ⟨by simp, ?_, hne⟩
          simpa using List.get?_concat_length m.toName name
        · rcases hfwd p h1 with ⟨hlt, hg, hn0⟩
          exact ⟨by simp [Nat.lt_succ_of_lt hlt], by
            simpa using (List.get?_append hlt).trans hg, hn0⟩
      · intro j hj hval
        have hlen : (m.toName ++ [name]).length = m.toName.length + 1 := by
          simp
        rw [hlen] at hj
        rcases Nat.lt_succ_iff_lt_or_eq.1 hj with hjl | hje
        · have hg : (m.toName ++ [name]).get? j = m.toName.get? j :=
            List.get?_append hjl
          rw [hg] at hval ⊢
          have hold := hbwd j hjl hval
          have hvn : (m.toName.get? j).getD emptyStr ≠ name := by
            intro he
            rw [he] at hold
            rw [hold] at hc
            exact Option.noConfusion hc
          rw [mget_mput_ne _ _ _ _ hvn]
          exact hold
        · subst hje
          have hg : (m.toName ++ [name]).get? m.toName.length = some name :=
            List.get?_concat_length _ _
          rw [hg]
          simpa using mget_mput_self m.toCid name m.toName.length
    · -- reuse the first free slot
      rcases findFree_spec m.toName 0 i hf with ⟨k, hk0, hklt0, hkget0⟩
      have hki : k = i := by omega
      rw [hki] at hklt0 hkget0
      have hget : Cid.get m name =
          ({ toCid := mput m.toCid name i,
             toName := m.toName.set i name }, i) := by
        simp [Cid.get, hc, hf]
      rw [hget]
      refine ⟨le_of_lt hklt0, List.get?_set_eq_of_lt name hklt0,
        nodupKeys_mput _ _ _ hnd, ?_, ?_⟩
      · intro p hp
        rcases mem_mput hp with h1 | h1
        · subst h1
          exact ⟨by simpa using hklt0, List.get?_set_eq_of_lt name hklt0, hne⟩
        · rcases hfwd p h1 with ⟨hlt, hg, hn0⟩
          have hpk : p.2 ≠ i := by
            intro he
            rw [he, hkget0] at hg
            injection hg with hg
            exact hn0 hg.symm
          exact ⟨by simpa using hlt, by
            rw [List.get?_set_ne name _ (fun hh => hpk hh.symm)]
            exact hg, hn0⟩
      · intro j hj hval
        have hjlen : j < m.toName.length := by simpa using hj
        by_cases hjk : j = i
        · subst hjk
          rw [List.get?_set_eq_of_lt name hjlen] at hval ⊢
          simpa using mget_mput_self m.toCid name j
        · rw [List.get?_set_ne name _ (fun hh => hjk hh.symm)] at hval ⊢
          have hold := hbwd j hjlen hval
          have hvn : (m.toName.get? j).getD emptyStr ≠ name := by
            intro he
            rw [he] at hold
            rw [hold] at hc
            exact Option.noConfusion hc
          rw [mget_mput_ne _ _ _ _ hvn]
          exact hold
  · -- the name already has an id
    have hget : Cid.get m name = (m, c) := by
      simp [Cid.get, hc]
    rw [hget]
    have hmem := mem_of_mget hc
    rcases hfwd (name, c) hmem with ⟨hlt, hg, _⟩
    exact ⟨le_of_lt hlt, hg, hnd, hfwd, hbwd⟩

/-- C7 witness: Get on the fresh map allocates slot 1 for the first peer
name, the slot then holds the name, and well-formedness is preserved. -/
theorem cid_get_spec_witness :
    (Cid.get Cid.NewMap nodeX).2 ≤ Cid.NewMap.toName.length ∧
    (Cid.get Cid.NewMap nodeX).1.toName.get? (Cid.get Cid.NewMap nodeX).2 =
      some nodeX ∧
    CidWF (Cid.get Cid.NewMap nodeX).1 :=
  cid_get_spec Cid.NewMap nodeX (by decide) (by decide)

end SyncSet

namespace SyncSet

theorem mget_mdel_self {α β : Type} [DecidableEq α] {m : List (α × β)}
    {k : α} (hn : NodupKeys m) : mget (mdel m k) k = none := by
  induction m with
  | nil => rfl
  | cons p t ih =>
    have hcons : p.1 ∉ t.map Prod.fst ∧ (t.map Prod.fst).Nodup := by
      simpa [NodupKeys] using hn
    by_cases hp : p.1 = k
    · simp only [mdel, if_pos hp]
      subst hp
      rcases hget : mget t p.1 with _ | v
      · rfl
      · exact absurd (List.mem_map_of_mem Prod.fst (mem_of_mget hget))
          hcons.1
    · simp only [mdel, if_neg hp, mget, if_neg hp]
      exact ih hcons.2

theorem mget_eq_none_of_not_mem {α β : Type} [DecidableEq α]
    {m : List (α × β)} {k : α} (h : k ∉ m.map Prod.fst) : mget m k = none := by
  induction m with
  | nil => rfl
  | cons p t ih =>
    have hp : p.1 ≠ k := by
      intro he
      exact h (by rw [List.map_cons, ← he]; exact List.mem_cons_self _ _)
    simp only [mget, if_neg hp]
    refine ih ?_
    intro hmem
    apply h
    rw [List.map_cons]
    exact List.mem_cons_of_mem p.1 hmem

theorem u32_succ_ne (v : Nat) : u32 (v + 1) ≠ v := by
  unfold u32
  omega

theorem mget_slot_ne_addRemoteOneKey (cid : Nat) (s : FSet) (f : SFile)
    (hskip : ¬ mget (s.remoteKey cid) f.Name = some (keyFor f)) :
    ¬ mget (s.remoteKey cid) f.Name = some (addRemoteOneKey cid s f) := by
  by_cases hv : f.Version = 0
  · rcases hget : mget (s.remoteKey cid) f.Name with _ | ck
    · intro h
      exact Option.noConfusion h
    · intro h
      injection h with h
      have hver : ck.Version = u32 (ck.Version + 1) := by
        conv_lhs => rw [h]
        simp [addRemoteOneKey, keyFor, hv, hget]
      exact u32_succ_ne ck.Version hver.symm
  · rw [show addRemoteOneKey cid s f = keyFor f by
      simp [addRemoteOneKey, keyFor, hv]]
    exact hskip

theorem refCount_congr (s1 s2 : FSet) (fk : FKey)
    (h : ∀ i, i < 64 →
      mget (s1.remoteKey i) fk.Name = mget (s2.remoteKey i) fk.Name) :
    refCount s1 fk = refCount s2 fk := by
  unfold refCount
  congr 1
  apply Finset.filter_congr
  intro i hi
  rw [Finset.mem_range] at hi
  simp [h i hi]

theorem refCount_insert (s1 s2 : FSet) (fk : FKey) (cid : Nat)
    (hcid : cid < 64)
    (h1 : mget (s2.remoteKey cid) fk.Name = some fk)
    (h0 : ¬ mget (s1.remoteKey cid) fk.Name = some fk)
    (h : ∀ i, i < 64 → i ≠ cid →
      mget (s1.remoteKey i) fk.Name = mget (s2.remoteKey i) fk.Name) :
    refCount s2 fk = refCount s1 fk + 1 := by
  unfold refCount
  have hset : (Finset.range 64).filter
      (fun i => mget (s2.remoteKey i) fk.Name = some fk) =
      insert cid ((Finset.range 64).filter
        (fun i => mget (s1.remoteKey i) fk.Name = some fk)) := by
    ext i
    simp only [Finset.mem_insert, Finset.mem_filter, Finset.mem_range]
    constructor
    · rintro ⟨hi, hp⟩
      by_cases hic : i = cid
      · exact Or.inl hic
      · exact Or.inr ⟨hi, by rw [h i hi hic]; exact hp⟩
    · rintro (hic | ⟨hi, hp⟩)
      · subst hic
        exact ⟨hcid, h1⟩
      · by_cases hic : i = cid
        · subst hic
          exact absurd hp h0
        · exact ⟨hi, by rw [← h i hi hic]; exact hp⟩
  rw [hset, Finset.card_insert_of_not_mem]
  simp only [Finset.mem_filter, Finset.mem_range, not_and]
  intro _
  exact h0

theorem refCount_le (s1 s2 : FSet) (fk : FKey)
    (h : ∀ i, i < 64 → mget (s2.remoteKey i) fk.Name = some fk →
      mget (s1.remoteKey i) fk.Name = some fk) :
    refCount s2 fk ≤ refCount s1 fk := by
  unfold refCount
  apply Finset.card_le_card
  intro i hi
  simp only [Finset.mem_filter, Finset.mem_range] at hi ⊢
  exact ⟨hi.1, h i hi.1 hi.2⟩

theorem one_le_refCount (s : FSet) (fk : FKey) (i : Nat) (hi : i < 64)
    (h : mget (s.remoteKey i) fk.Name = some fk) : 1 ≤ refCount s fk := by
  apply Finset.card_pos.2
  exact ⟨i, by simp [Finset.mem_filter, Finset.mem_range, hi, h]⟩

theorem two_le_refCount (s : FSet) (fk : FKey) (i j : Nat) (hi : i < 64)
    (hj : j < 64) (hij : i ≠ j)
    (h1 : mget (s.remoteKey i) fk.Name = some fk)
    (h2 : mget (s.remoteKey j) fk.Name = some fk) : 2 ≤ refCount s fk := by
  have hsub : ({i, j} : Finset Nat) ⊆ (Finset.range 64).filter
      (fun x => mget (s.remoteKey x) fk.Name = some fk) := by
    intro x hx
    simp only [Finset.mem_insert, Finset.mem_singleton] at hx
    rcases hx with hx | hx <;> subst hx <;>
      simp [Finset.mem_filter, Finset.mem_range, hi, hj, h1, h2]
  have hcard : ({i, j} : Finset Nat).card = 2 := by
    rw [Finset.card_insert_of_not_mem (by simp [hij]), Finset.card_singleton]
  calc 2 = ({i, j} : Finset Nat).card := hcard.symm
    _ ≤ _ := Finset.card_le_card hsub

theorem addRemoteOne_slot_other (cid i : Nat) (s : FSet) (f : SFile)
    (hi : i ≠ cid) :
    (addRemoteOne cid s f).remoteKey i = s.remoteKey i := by
  by_cases hskip : mget (s.remoteKey cid) f.Name = some (keyFor f)
  · rw [addRemoteOne_skip cid s f hskip]
  · rw [addRemoteOne_remoteKey_eq cid s f hskip i, if_neg hi]

end SyncSet

namespace SyncSet

theorem INV_addRemoteOne (cid : Nat) (s : FSet) (f : SFile)
    (hs : INV s) (hcid : cid < 64) : INV (addRemoteOne cid s f) := by
  by_cases hskip : mget (s.remoteKey cid) f.Name = some (keyFor f)
  · rw [addRemoteOne_skip cid s f hskip]
    exact hs
  · have hfkName : (addRemoteOneKey cid s f).Name = f.Name :=
      addRemoteOneKey_name cid s f
    have hnew := mget_slot_ne_addRemoteOneKey cid s f hskip
    have hrk := addRemoteOne_remoteKey_eq cid s f hskip
    have hfiles := addRemoteOne_files_eq cid s f hskip
    have hg := addRemoteOne_global_eq cid s f hskip
    set fk := addRemoteOneKey cid s f with hfkdef
    -- slot lookups in the new state
    have hslot : ∀ i m, mget ((addRemoteOne cid s f).remoteKey i) m =
        if i = cid ∧ m = f.Name then some fk
        else mget (s.remoteKey i) m := by
      intro i m
      rw [hrk i]
      by_cases hic : i = cid
      · subst hic
        rw [if_pos rfl]
        by_cases hm : m = f.Name
        · subst hm
          rw [if_pos ⟨rfl, rfl⟩, mget_mput_self]
        · rw [if_neg (by rintro ⟨_, h⟩; exact hm h),
            mget_mput_ne _ _ _ _ hm]
      · rw [if_neg hic, if_neg (by rintro ⟨h, _⟩; exact hic h)]
    -- files lookups in the new state
    have hfget : ∀ k, mget (addRemoteOne cid s f).files k =
        if k = fk then
          (match mget s.files fk with
           | none => some { Usage := 1, File := f }
           | some br => some { Usage := br.Usage + 1, File := br.File })
        else mget s.files k := by
      intro k
      rw [hfiles]
      unfold addRemoteFiles
      rcases hbr : mget s.files fk with _ | br
      · simp only [hbr]
        by_cases hk : k = fk
        · subst hk
          rw [if_pos rfl, mget_mput_self]
        · rw [if_neg hk, mget_mput_ne _ _ _ _ hk]
      · simp only [hbr]
        by_cases hk : k = fk
        · subst hk
          rw [if_pos rfl, mget_mput_self]
        · rw [if_neg hk, mget_mput_ne _ _ _ _ hk]
    have hres : ∀ k, (∃ fr, mget s.files k = some fr) →
        ∃ fr, mget (addRemoteOne cid s f).files k = some fr := by
      intro k hk
      rcases hk with ⟨fr, hfr⟩
      rw [hfget k]
      by_cases hke : k = fk
      · subst hke
        rw [if_pos rfl, hfr]
        exact ⟨_, rfl⟩
      · rw [if_neg hke, hfr]
        exact ⟨fr, rfl⟩
    have hres_fk : ∃ fr, mget (addRemoteOne cid s f).files fk = some fr := by
      rw [hfget fk, if_pos rfl]
      rcases mget s.files fk with _ | br
      · exact ⟨_, rfl⟩
      · exact ⟨_, rfl⟩
    -- reference counts in the new state
    have hrc_other : ∀ k : FKey, k.Name ≠ f.Name →
        refCount (addRemoteOne cid s f) k = refCount s k := by
      intro k hk
      refine (refCount_congr s _ k ?_).symm
      intro i hi
      rw [hslot i k.Name, if_neg (by rintro ⟨_, h⟩; exact hk h)]
    have hrc_fk : refCount (addRemoteOne cid s f) fk = refCount s fk + 1 := by
      refine refCount_insert s _ fk cid hcid ?_ ?_ ?_
      · rw [hslot cid fk.Name, if_pos ⟨rfl, hfkName⟩]
      · rw [hfkName]
        exact hnew
      · intro i hi hic
        rw [hslot i fk.Name, if_neg (by rintro ⟨h, _⟩; exact hic h)]
    have hrc_le : ∀ k : FKey, k ≠ fk →
        refCount (addRemoteOne cid s f) k ≤ refCount s k := by
      intro k hk
      refine refCount_le s _ k ?_
      intro i hi hsome
      rw [hslot i k.Name] at hsome
      by_cases hcond : i = cid ∧ k.Name = f.Name
      · rw [if_pos hcond] at hsome
        injection hsome with hsome
        exact absurd hsome.symm hk
      · rw [if_neg hcond] at hsome
        exact hsome
    -- the three global branches
    have hgcases :
        (∃ gk, mget s.globalKey f.Name = some gk ∧ fk = gk ∧
          (addRemoteOne cid s f).globalKey = s.globalKey ∧
          (addRemoteOne cid s f).globalAvailability =
            mput s.globalAvailability f.Name
              (((mget s.globalAvailability f.Name).getD 0) ||| (1 <<< cid))) ∨
        (((∃ gk, mget s.globalKey f.Name = some gk ∧ fk ≠ gk ∧
              gk.Version < fk.Version) ∨
            (mget s.globalKey f.Name = none ∧ 0 < fk.Version)) ∧
          (addRemoteOne cid s f).globalKey = mput s.globalKey f.Name fk ∧
          (addRemoteOne cid s f).globalAvailability =
            mput s.globalAvailability f.Name (1 <<< cid)) ∨
        (((∃ gk, mget s.globalKey f.Name = some gk ∧ fk ≠ gk ∧
              ¬ gk.Version < fk.Version) ∨
            (mget s.globalKey f.Name = none ∧ fk.Version = 0)) ∧
          (addRemoteOne cid s f).globalKey = s.globalKey ∧
          (addRemoteOne cid s f).globalAvailability =
            s.globalAvailability) := by
      rcases hg with ⟨hg1, hg2⟩
      rw [hg1, hg2]
      unfold addRemoteGlobal
      rcases hgk : mget s.globalKey f.Name with _ | gk
      · by_cases h2 : fk.newerThan zeroKey
        · refine Or.inr (Or.inl ⟨Or.inr ⟨rfl, ?_⟩, ?_, ?_⟩)
          · exact h2
          · simp [h2]
          · simp [h2]
        · refine Or.inr (Or.inr ⟨Or.inr ⟨rfl, ?_⟩, ?_, ?_⟩)
          · have hz := h2
            unfold FKey.newerThan at hz
            rw [show zeroKey.Version = 0 from rfl] at hz
            omega
          · simp [h2]
          · simp [h2]
      · by_cases h1 : fk = gk
        · exact Or.inl ⟨gk, rfl, h1, by simp [h1], by simp [h1]⟩
        · by_cases h2 : fk.newerThan gk
          · exact Or.inr (Or.inl ⟨Or.inl ⟨gk, rfl, h1, h2⟩,
              by simp [h1, h2], by simp [h1, h2]⟩)
          · refine Or.inr (Or.inr ⟨Or.inl ⟨gk, rfl, h1, ?_⟩,
              by simp [h1, h2], by simp [h1, h2]⟩)
            have := h2
            unfold FKey.newerThan at this
            omega
    refine ⟨?_, ?_, ?_, ?_, ?_, ?_, ?_, ?_, ?_, ?_, ?_, ?_⟩
    -- ndFiles
    · rw [hfiles]
      unfold addRemoteFiles
      rcases mget s.files fk with _ | br
      · exact nodupKeys_mput _ _ _ hs.ndFiles
      · exact nodupKeys_mput _ _ _ hs.ndFiles
    -- ndGlobal
    · rcases hgcases with ⟨_, _, _, hG, _⟩ | ⟨_, hG, _⟩ | ⟨_, hG, _⟩
      · rw [hG]
        exact hs.ndGlobal
      · rw [hG]
        exact nodupKeys_mput _ _ _ hs.ndGlobal
      · rw [hG]
        exact hs.ndGlobal
    -- ndAvail
    · rcases hgcases with ⟨_, _, _, _, hA⟩ | ⟨_, _, hA⟩ | ⟨_, _, hA⟩
      · rw [hA]
        exact nodupKeys_mput _ _ _ hs.ndAvail
      · rw [hA]
        exact nodupKeys_mput _ _ _ hs.ndAvail
      · rw [hA]
        exact hs.ndAvail
    -- ndSlot
    · intro i
      rw [hrk i]
      by_cases hic : i = cid
      · rw [if_pos hic]
        exact nodupKeys_mput _ _ _ (hs.ndSlot cid)
      · rw [if_neg hic]
        exact hs.ndSlot i
    -- slotHi
    · intro i hi
      have hic : i ≠ cid := by omega
      rw [hrk i, if_neg hic]
      exact hs.slotHi i hi
    -- slotKey
    · intro i m k hk
      rw [hslot i m] at hk
      by_cases hcond : i = cid ∧ m = f.Name
      · rw [if_pos hcond] at hk
        injection hk with hk
        subst hk
        exact ⟨hcond.2 ▸ hfkName, hres_fk⟩
      · rw [if_neg hcond] at hk
        rcases hs.slotKey i m k hk with ⟨h1, h2⟩
        exact ⟨h1, hres k h2⟩
    -- filesRec
    · intro k fr' hk
      rw [hfget k] at hk
      by_cases hke : k = fk
      · subst hke
        rw [if_pos rfl] at hk
        rcases hbr : mget s.files fk with _ | br
        · rw [hbr] at hk
          injection hk with hk
          subst hk
          constructor
          · exact hfkName.symm
          · rw [hrc_fk]
            have hrc0 : refCount s fk = 0 := by
              unfold refCount
              by_contra hrc
              rcases Finset.card_pos.1 (Nat.pos_of_ne_zero hrc) with ⟨i, hi⟩
              rw [Finset.mem_filter] at hi
              rcases hs.slotKey i fk.Name fk hi.2 with ⟨_, fr0, hfr0⟩
              rw [hfr0] at hbr
              exact Option.noConfusion hbr
            rw [hrc0]
            simp
        · rw [hbr] at hk
          injection hk with hk
          subst hk
          rcases hs.filesRec fk br hbr with ⟨hn1, hu1⟩
          refine ⟨hn1, ?_⟩
          rw [hrc_fk]
          push_cast
          omega
      · rw [if_neg hke] at hk
        rcases hs.filesRec k fr' hk with ⟨h1, h2⟩
        refine ⟨h1, le_trans ?_ h2⟩
        exact_mod_cast Nat.cast_le.2 (hrc_le k hke)
    -- globKey
    · intro m gk' hm
      by_cases hmn : m = f.Name
      · subst hmn
        rcases hgcases with ⟨gk, hgk, hfe, hG, _⟩ | ⟨hc, hG, _⟩ | ⟨hc, hG, _⟩
        · rw [hG] at hm
          rw [hm] at hgk
          injection hgk with hgk
          rcases hs.globKey f.Name gk' hm with ⟨hn1, hr1, hub1⟩
          refine ⟨hn1, hres gk' hr1, ?_⟩
          intro i k hk
          rw [hslot i f.Name] at hk
          by_cases hcond : i = cid ∧ f.Name = f.Name
          · rw [if_pos hcond] at hk
            injection hk with hk
            subst hk
            rw [hfe, ← hgk]
          · rw [if_neg hcond] at hk
            exact hub1 i k hk
        · rw [hG, mget_mput_self] at hm
          injection hm with hm
          subst hm
          refine ⟨hfkName, hres_fk, ?_⟩
          intro i k hk
          rw [hslot i f.Name] at hk
          by_cases hcond : i = cid ∧ f.Name = f.Name
          · rw [if_pos hcond] at hk
            injection hk with hk
            subst hk
            exact le_refl _
          · rw [if_neg hcond] at hk
            rcases hc with ⟨gk, hgk, _, hlt⟩ | ⟨hnone, hpos⟩
            · exact le_of_lt (Nat.lt_of_le_of_lt
                ((hs.globKey f.Name gk hgk).2.2 i k hk) hlt)
            · rw [hs.globNone f.Name hnone i k hk]
              exact Nat.zero_le _
        · rw [hG] at hm
          rcases hs.globKey f.Name gk' hm with ⟨hn1, hr1, hub1⟩
          refine ⟨hn1, hres gk' hr1, ?_⟩
          intro i k hk
          rw [hslot i f.Name] at hk
          by_cases hcond : i = cid ∧ f.Name = f.Name
          · rw [if_pos hcond] at hk
            injection hk with hk
            subst hk
            rcases hc with ⟨gk, hgk, _, hnlt⟩ | ⟨hnone, _⟩
            · rw [hgk] at hm
              injection hm with hm
              subst hm
              omega
            · rw [hnone] at hm
              exact Option.noConfusion hm
          · rw [if_neg hcond] at hk
            exact hub1 i k hk
      · have hGm : mget (addRemoteOne cid s f).globalKey m =
            mget s.globalKey m := by
          rcases hgcases with ⟨_, _, _, hG, _⟩ | ⟨_, hG, _⟩ | ⟨_, hG, _⟩
          · rw [hG]
          · rw [hG, mget_mput_ne _ _ _ _ hmn]
          · rw [hG]
        rw [hGm] at hm
        rcases hs.globKey m gk' hm with ⟨hn1, hr1, hub1⟩
        refine ⟨hn1, hres gk' hr1, ?_⟩
        intro i k hk
        rw [hslot i m, if_neg (by rintro ⟨_, h⟩; exact hmn h)] at hk
        exact hub1 i k hk
    -- globNone
    · intro m hm i k hk
      by_cases hmn : m = f.Name
      · subst hmn
        rcases hgcases with ⟨gk, hgk, hfe, hG, _⟩ | ⟨hc, hG, _⟩ | ⟨hc, hG, _⟩
        · rw [hG, hgk] at hm
          exact Option.noConfusion hm
        · rw [hG, mget_mput_self] at hm
          exact Option.noConfusion hm
        · rw [hG] at hm
          rcases hc with ⟨gk, hgk, _, _⟩ | ⟨hnone, hz⟩
          · rw [hgk] at hm
            exact Option.noConfusion hm
          · rw [hslot i f.Name] at hk
            by_cases hcond : i = cid ∧ f.Name = f.Name
            · rw [if_pos hcond] at hk
              injection hk with hk
              subst hk
              exact hz
            · rw [if_neg hcond] at hk
              exact hs.globNone f.Name hnone i k hk
      · have hGm : mget (addRemoteOne cid s f).globalKey m =
            mget s.globalKey m := by
          rcases hgcases with ⟨_, _, _, hG, _⟩ | ⟨_, hG, _⟩ | ⟨_, hG, _⟩
          · rw [hG]
          · rw [hG, mget_mput_ne _ _ _ _ hmn]
          · rw [hG]
        rw [hGm] at hm
        rw [hslot i m, if_neg (by rintro ⟨_, h⟩; exact hmn h)] at hk
        exact hs.globNone m hm i k hk
    -- availDom
    · intro m
      by_cases hmn : m = f.Name
      · subst hmn
        rcases hgcases with ⟨gk, hgk, _, hG, hA⟩ | ⟨_, hG, hA⟩ | ⟨_, hG, hA⟩
        · rw [hG, hA, mget_mput_self, hgk]
          simp
        · rw [hG, hA, mget_mput_self, mget_mput_self]
          simp
        · rw [hG, hA]
          exact hs.availDom f.Name
      · have hGm : mget (addRemoteOne cid s f).globalKey m =
            mget s.globalKey m := by
          rcases hgcases with ⟨_, _, _, hG, _⟩ | ⟨_, hG, _⟩ | ⟨_, hG, _⟩
          · rw [hG]
          · rw [hG, mget_mput_ne _ _ _ _ hmn]
          · rw [hG]
        have hAm : mget (addRemoteOne cid s f).globalAvailability m =
            mget s.globalAvailability m := by
          rcases hgcases with ⟨_, _, _, _, hA⟩ | ⟨_, _, hA⟩ | ⟨_, _, hA⟩
          · rw [hA, mget_mput_ne _ _ _ _ hmn]
          · rw [hA, mget_mput_ne _ _ _ _ hmn]
          · rw [hA]
        rw [hGm, hAm]
        exact hs.availDom m
    -- availPos
    · intro m a hm
      have hbitc : Nat.testBit (1 <<< cid) cid = true := by
        rw [Nat.shiftLeft_eq, one_mul]
        exact Nat.testBit_two_pow_self
      have hlor_ne : ∀ b : Nat, b ||| (1 <<< cid) ≠ 0 := by
        intro b h0
        have hbit : Nat.testBit (b ||| (1 <<< cid)) cid = true := by
          rw [Nat.testBit_or, hbitc]
          exact Bool.or_true _
        rw [h0] at hbit
        simp at hbit
      have hshift_ne : (1 : Nat) <<< cid ≠ 0 := by
        intro h0
        rw [h0] at hbitc
        simp at hbitc
      by_cases hmn : m = f.Name
      · subst hmn
        rcases hgcases with ⟨gk, hgk, _, _, hA⟩ | ⟨_, _, hA⟩ | ⟨_, _, hA⟩
        · rw [hA, mget_mput_self] at hm
          injection hm with hm
          subst hm
          exact hlor_ne _
        · rw [hA, mget_mput_self] at hm
          injection hm with hm
          subst hm
          exact hshift_ne
        · rw [hA] at hm
          exact hs.availPos f.Name a hm
      · have hAm : mget (addRemoteOne cid s f).globalAvailability m =
            mget s.globalAvailability m := by
          rcases hgcases with ⟨_, _, _, _, hA⟩ | ⟨_, _, hA⟩ | ⟨_, _, hA⟩
          · rw [hA, mget_mput_ne _ _ _ _ hmn]
          · rw [hA, mget_mput_ne _ _ _ _ hmn]
          · rw [hA]
        rw [hAm] at hm
        exact hs.availPos m a hm
    -- availSup
    · intro m gk' hm i hk
      by_cases hmn : m = f.Name
      · subst hmn
        rcases hgcases with ⟨gk, hgk, hfe, hG, hA⟩ | ⟨hc, hG, hA⟩ |
          ⟨hc, hG, hA⟩
        · rw [hG] at hm
          rw [hm] at hgk
          injection hgk with hgk
          rw [hA, mget_mput_self]
          rw [hslot i f.Name] at hk
          by_cases hcond : i = cid ∧ f.Name = f.Name
          · rw [Option.getD_some, Nat.testBit_or]
            have : Nat.testBit (1 <<< cid) cid = true := by
              rw [Nat.shiftLeft_eq, one_mul]
              exact Nat.testBit_two_pow_self
            rw [hcond.1, this]
            exact Bool.or_true _
          · rw [if_neg hcond] at hk
            have hold := hs.availSup f.Name gk' hm i hk
            rw [Option.getD_some, Nat.testBit_or, hold]
            exact Bool.true_or _
        · rw [hG, mget_mput_self] at hm
          injection hm with hm
          rw [hA, mget_mput_self, Option.getD_some]
          rw [hslot i f.Name] at hk
          by_cases hcond : i = cid ∧ f.Name = f.Name
          · rw [hcond.1, Nat.shiftLeft_eq, one_mul]
            exact Nat.testBit_two_pow_self
          · rw [if_neg hcond] at hk
            exfalso
            rcases hc with ⟨gk, hgk, _, hlt⟩ | ⟨hnone, hpos⟩
            · have := (hs.globKey f.Name gk hgk).2.2 i gk' hk
              rw [← hm] at this
              omega
            · have := hs.globNone f.Name hnone i gk' hk
              rw [← hm] at this
              omega
        · rw [hG] at hm
          rw [hA]
          rw [hslot i f.Name] at hk
          by_cases hcond : i = cid ∧ f.Name = f.Name
          · exfalso
            rw [if_pos hcond] at hk
            injection hk with hk
            rcases hc with ⟨gk, hgk, hne, _⟩ | ⟨hnone, _⟩
            · rw [hgk] at hm
              injection hm with hm
              exact hne (hk.trans hm.symm)
            · rw [hnone] at hm
              exact Option.noConfusion hm
          · rw [if_neg hcond] at hk
            exact hs.availSup f.Name gk' hm i hk
      · have hGm : mget (addRemoteOne cid s f).globalKey m =
            mget s.globalKey m := by
          rcases hgcases with ⟨_, _, _, hG, _⟩ | ⟨_, hG, _⟩ | ⟨_, hG, _⟩
          · rw [hG]
          · rw [hG, mget_mput_ne _ _ _ _ hmn]
          · rw [hG]
        have hAm : mget (addRemoteOne cid s f).globalAvailability m =
            mget s.globalAvailability m := by
          rcases hgcases with ⟨_, _, _, _, hA⟩ | ⟨_, _, hA⟩ | ⟨_, _, hA⟩
          · rw [hA, mget_mput_ne _ _ _ _ hmn]
          · rw [hA, mget_mput_ne _ _ _ _ hmn]
          · rw [hA]
        rw [hGm] at hm
        rw [hAm]
        rw [hslot i m, if_neg (by rintro ⟨_, h⟩; exact hmn h)] at hk
        exact hs.availSup m gk' hm i hk

end SyncSet

namespace SyncSet

theorem INV_addRemote (cid : Nat) (fs : List SFile) (s : FSet)
    (hs : INV s) (hcid : cid < 64) : INV (addRemote cid fs s) := by
  induction fs generalizing s with
  | nil => exact hs
  | cons f t ih =>
    rw [addRemote_cons]
    exact ih (addRemoteOne cid s f) (INV_addRemoteOne cid s f hs hcid)

theorem decUsage_nodup (files : List (FKey × FileRecord)) (k : FKey)
    (hn : NodupKeys files) : NodupKeys (decUsage files k) := by
  unfold decUsage
  rcases mget files k with _ | br
  · exact hn
  · by_cases h1 : br.Usage = 1
    · simp only [if_pos h1]
      exact nodupKeys_mdel _ _ hn
    · by_cases h2 : 1 < br.Usage
      · simp only [if_neg h1, if_pos h2]
        exact nodupKeys_mput _ _ _ hn
      · simp only [if_neg h1, if_neg h2]
        exact hn

theorem decUsage_self (files : List (FKey × FileRecord)) (k : FKey)
    (hn : NodupKeys files) :
    mget (decUsage files k) k = decOneOpt (mget files k) := by
  unfold decUsage decOneOpt
  rcases hbr : mget files k with _ | br
  · rw [hbr]
  · by_cases h1 : br.Usage = 1
    · simp only [if_pos h1]
      exact mget_mdel_self hn
    · by_cases h2 : 1 < br.Usage
      · simp only [if_neg h1, if_pos h2]
        exact mget_mput_self _ _ _
      · simp only [if_neg h1, if_neg h2]
        exact hbr

theorem decUsage_other (files : List (FKey × FileRecord)) (k k' : FKey)
    (hk : k' ≠ k) : mget (decUsage files k) k' = mget files k' := by
  unfold decUsage
  rcases mget files k with _ | br
  · rfl
  · by_cases h1 : br.Usage = 1
    · simp only [if_pos h1]
      exact mget_mdel_ne _ _ _ hk
    · by_cases h2 : 1 < br.Usage
      · simp only [if_neg h1, if_pos h2]
        exact mget_mput_ne _ _ _ _ hk
      · simp only [if_neg h1, if_neg h2]

theorem decUsage_fold (L : List (String × FKey)) :
    ∀ (files0 : List (FKey × FileRecord)), NodupKeys files0 →
      (L.map Prod.snd).Nodup →
      NodupKeys (L.foldl (fun acc p => decUsage acc p.2) files0) ∧
      ∀ k, mget (L.foldl (fun acc p => decUsage acc p.2) files0) k =
        if k ∈ L.map Prod.snd then decOneOpt (mget files0 k)
        else mget files0 k := by
  induction L with
  | nil =>
    intro files0 hnd _
    refine ⟨hnd, ?_⟩
    intro k
    rw [List.foldl_nil, if_neg (by simp)]
  | cons p t ih =>
    intro files0 hnd hvals
    rw [List.map_cons, List.nodup_cons] at hvals
    have hnd1 : NodupKeys (decUsage files0 p.2) := decUsage_nodup _ _ hnd
    rcases ih (decUsage files0 p.2) hnd1 hvals.2 with ⟨hnd2, heq⟩
    refine ⟨hnd2, ?_⟩
    intro k
    rw [List.foldl_cons, heq k]
    by_cases hk : k = p.2
    · subst hk
      rw [if_neg (fun hmem => hvals.1 hmem), if_pos (by
        rw [List.map_cons]
        exact List.mem_cons_self _ _)]
      exact decUsage_self files0 p.2 hnd
    · rw [decUsage_other files0 p.2 k hk]
      by_cases hmem : k ∈ t.map Prod.snd
      · rw [if_pos hmem, if_pos (by
          rw [List.map_cons]
          exact List.mem_cons_of_mem _ hmem)]
      · rw [if_neg hmem, if_neg (by
          rw [List.map_cons]
          intro hc
          rcases List.mem_cons.1 hc with h1 | h1
          · exact hk h1
          · exact hmem h1)]

theorem slot_vals_nodup (s : FSet) (hs : INV s) (cid : Nat) :
    ((s.remoteKey cid).map Prod.snd).Nodup := by
  have hpairs : (s.remoteKey cid).Nodup :=
    List.Nodup.of_map Prod.fst (hs.ndSlot cid)
  refine List.Nodup.map_on ?_ hpairs
  intro x hx y hy hxy
  have hgx : mget (s.remoteKey cid) x.1 = some x.2 :=
    mget_of_mem (hs.ndSlot cid) (by cases x; exact hx)
  have hgy : mget (s.remoteKey cid) y.1 = some y.2 :=
    mget_of_mem (hs.ndSlot cid) (by cases y; exact hy)
  have hnx := (hs.slotKey cid x.1 x.2 hgx).1
  have hny := (hs.slotKey cid y.1 y.2 hgy).1
  have h1 : x.1 = y.1 := by
    rw [← hnx, ← hny, hxy]
  cases x
  cases y
  simp only at hxy h1
  rw [h1, hxy]
end SyncSet

namespace SyncSet

theorem decOneOpt_some (br : FileRecord) :
    decOneOpt (some br) = if br.Usage = 1 then none
      else if 1 < br.Usage then
        some { Usage := br.Usage - 1, File := br.File }
      else some br := rfl

theorem recomputeName_eq (s : FSet) (n : String) :
    recomputeName s n =
      if ((List.range 64).foldl (recomputeStep s n) (zeroKey, 0)).2 ≠ 0 then
        { s with
          globalKey := mput s.globalKey n
            ((List.range 64).foldl (recomputeStep s n) (zeroKey, 0)).1,
          globalAvailability := mput s.globalAvailability n
            ((List.range 64).foldl (recomputeStep s n) (zeroKey, 0)).2 }
      else
        { s with globalKey := mdel s.globalKey n,
                 globalAvailability := mdel s.globalAvailability n } := rfl

theorem slot_mem_iff (s : FSet) (hs : INV s) (cid : Nat) (k : FKey) :
    k ∈ (s.remoteKey cid).map Prod.snd ↔
      mget (s.remoteKey cid) k.Name = some k := by
  constructor
  · intro hk
    rcases List.mem_map.1 hk with ⟨⟨n1, k1⟩, hp, hpk⟩
    simp only at hpk
    have hg : mget (s.remoteKey cid) n1 = some k1 :=
      mget_of_mem (hs.ndSlot cid) hp
    have hn := (hs.slotKey cid n1 k1 hg).1
    rw [← hpk, hn]
    exact hg
  · intro hk
    exact List.mem_map_of_mem Prod.snd (mem_of_mget hk)

theorem clearSlot_spec (cid : Nat) (s : FSet) (hs : INV s) :
    NodupKeys (clearSlot cid s).files ∧
    ∀ k, mget (clearSlot cid s).files k =
      if mget (s.remoteKey cid) k.Name = some k then
        decOneOpt (mget s.files k)
      else mget s.files k := by
  have hnd := slot_vals_nodup s hs cid
  rcases decUsage_fold (s.remoteKey cid) s.files hs.ndFiles hnd with ⟨h1, h2⟩
  refine ⟨h1, ?_⟩
  intro k
  rw [show (clearSlot cid s).files =
    (s.remoteKey cid).foldl (fun acc p => decUsage acc p.2) s.files from rfl,
    h2 k]
  by_cases hmem : k ∈ (s.remoteKey cid).map Prod.snd
  · rw [if_pos hmem, if_pos ((slot_mem_iff s hs cid k).1 hmem)]
  · rw [if_neg hmem, if_neg (fun hc => hmem ((slot_mem_iff s hs cid k).2 hc))]

theorem clearSlot_resident (cid : Nat) (s : FSet) (hs : INV s)
    (hcid : cid < 64) (i : Nat) (n : String) (fk : FKey)
    (hget : mget ((clearSlot cid s).remoteKey i) n = some fk) :
    fk.Name = n ∧ ∃ fr, mget (clearSlot cid s).files fk = some fr := by
  have hicid : i ≠ cid := by
    intro h
    rw [show (clearSlot cid s).remoteKey i =
      if i = cid then [] else s.remoteKey i from rfl, if_pos h] at hget
    exact Option.noConfusion hget
  have hgs : mget (s.remoteKey i) n = some fk := by
    rw [show (clearSlot cid s).remoteKey i =
      if i = cid then [] else s.remoteKey i from rfl, if_neg hicid] at hget
    exact hget
  rcases hs.slotKey i n fk hgs with ⟨hname, fr, hfr⟩
  refine ⟨hname, ?_⟩
  rcases clearSlot_spec cid s hs with ⟨_, hch⟩
  rw [hch fk]
  by_cases hd : mget (s.remoteKey cid) fk.Name = some fk
  · rw [if_pos hd]
    have hi64 : i < 64 := by
      by_contra h
      rw [hs.slotHi i (by omega)] at hgs
      exact Option.noConfusion hgs
    have h2 : 2 ≤ refCount s fk :=
      two_le_refCount s fk i cid hi64 hcid hicid
        (by rw [hname]; exact hgs) hd
    have hrc := (hs.filesRec fk fr hfr).2
    have husage : 2 ≤ fr.Usage := le_trans (by exact_mod_cast h2) hrc
    rw [hfr, decOneOpt_some, if_neg (by omega), if_pos (by omega)]
    exact ⟨_, rfl⟩
  · rw [if_neg hd, hfr]
    exact ⟨fr, rfl⟩

theorem recomputeStep_congr (s s' : FSet) (n : String)
    (h : ∀ i, s.remoteKey i = s'.remoteKey i) :
    recomputeStep s n = recomputeStep s' n := by
  funext p i
  unfold recomputeStep
  rw [h i]

theorem recomputeName_files (s : FSet) (n : String) :
    (recomputeName s n).files = s.files ∧
    (recomputeName s n).remoteKey = s.remoteKey := by
  rw [recomputeName_eq]
  split <;> exact ⟨rfl, rfl⟩

theorem recomputeName_nodup (s : FSet) (n : String)
    (h1 : NodupKeys s.globalKey) (h2 : NodupKeys s.globalAvailability) :
    NodupKeys (recomputeName s n).globalKey ∧
    NodupKeys (recomputeName s n).globalAvailability := by
  rw [recomputeName_eq]
  split
  · exact ⟨nodupKeys_mput _ _ _ h1, nodupKeys_mput _ _ _ h2⟩
  · exact ⟨nodupKeys_mdel _ _ h1, nodupKeys_mdel _ _ h2⟩

theorem recomputeName_global_other (s : FSet) (n m : String) (h : m ≠ n) :
    mget (recomputeName s n).globalKey m = mget s.globalKey m ∧
    mget (recomputeName s n).globalAvailability m =
      mget s.globalAvailability m := by
  rw [recomputeName_eq]
  split
  · exact ⟨mget_mput_ne _ _ _ _ h, mget_mput_ne _ _ _ _ h⟩
  · exact ⟨mget_mdel_ne _ _ _ h, mget_mdel_ne _ _ _ h⟩

theorem recomputeName_global_self (s : FSet) (n : String)
    (h1 : NodupKeys s.globalKey) (h2 : NodupKeys s.globalAvailability) :
    (((List.range 64).foldl (recomputeStep s n) (zeroKey, 0)).2 ≠ 0 →
      mget (recomputeName s n).globalKey n =
        some ((List.range 64).foldl (recomputeStep s n) (zeroKey, 0)).1 ∧
      mget (recomputeName s n).globalAvailability n =
        some ((List.range 64).foldl (recomputeStep s n) (zeroKey, 0)).2) ∧
    (((List.range 64).foldl (recomputeStep s n) (zeroKey, 0)).2 = 0 →
      mget (recomputeName s n).globalKey n = none ∧
      mget (recomputeName s n).globalAvailability n = none) := by
  rw [recomputeName_eq]
  constructor
  · intro hnz
    rw [if_pos hnz]
    exact ⟨mget_mput_self _ _ _, mget_mput_self _ _ _⟩
  · intro hz
    rw [if_neg (by simpa using hz)]
    exact ⟨mget_mdel_self h1, mget_mdel_self h2⟩

end SyncSet

namespace SyncSet

theorem recomputeStep_none (s : FSet) (n : String) (p : FKey × Nat)
    (i : Nat) (h : mget (s.remoteKey i) n = none) :
    recomputeStep s n p i = p := by
  unfold recomputeStep
  rw [h]

theorem recomputeStep_some (s : FSet) (n : String) (p : FKey × Nat)
    (i : Nat) (rk : FKey) (h : mget (s.remoteKey i) n = some rk) :
    recomputeStep s n p i =
      (if rk = p.1 then (p.1, p.2 ||| (1 <<< i))
       else if rk.newerThan p.1 then (rk, 1 <<< i)
       else p) := by
  unfold recomputeStep
  rw [h]

theorem testBit_shift_self (i : Nat) : Nat.testBit (1 <<< i) i = true := by
  rw [Nat.one_shiftLeft]
  exact Nat.testBit_two_pow_self

theorem testBit_lor_left (a b i : Nat) (h : Nat.testBit a i = true) :
    Nat.testBit (a ||| b) i = true := by
  rw [Nat.testBit_or, h]
  rfl

theorem testBit_lor_shift (a i : Nat) :
    Nat.testBit (a ||| 1 <<< i) i = true := by
  rw [Nat.testBit_or, testBit_shift_self]
  exact Bool.or_true _

theorem lor_shift_ne_zero (a i : Nat) : a ||| 1 <<< i ≠ 0 := by
  intro h
  have hb := testBit_lor_shift a i
  rw [h, Nat.zero_testBit] at hb
  exact Bool.noConfusion hb

theorem shift_ne_zero (i : Nat) : (1 : Nat) <<< i ≠ 0 := by
  intro h
  have hb := testBit_shift_self i
  rw [h, Nat.zero_testBit] at hb
  exact Bool.noConfusion hb

end SyncSet

namespace SyncSet

theorem recompute_fold_spec (s : FSet) (n : String) (L : List Nat) :
    ((L.foldl (recomputeStep s n) (zeroKey, 0)).2 = 0 →
      (L.foldl (recomputeStep s n) (zeroKey, 0)).1 = zeroKey ∧
      ∀ i ∈ L, ∀ fk, mget (s.remoteKey i) n = some fk →
        fk.Version = 0 ∧ fk ≠ zeroKey) ∧
    ((L.foldl (recomputeStep s n) (zeroKey, 0)).2 ≠ 0 →
      (∃ i ∈ L, mget (s.remoteKey i) n =
        some (L.foldl (recomputeStep s n) (zeroKey, 0)).1) ∧
      (∀ i ∈ L, ∀ fk, mget (s.remoteKey i) n = some fk →
        fk.Version ≤ (L.foldl (recomputeStep s n) (zeroKey, 0)).1.Version) ∧
      (∀ i ∈ L, mget (s.remoteKey i) n =
          some (L.foldl (recomputeStep s n) (zeroKey, 0)).1 →
        Nat.testBit (L.foldl (recomputeStep s n) (zeroKey, 0)).2 i)) := by
  induction L using List.reverseRecOn with
  | nil =>
    exact ⟨fun _ => ⟨rfl, fun i hi => absurd hi (List.not_mem_nil i)⟩,
      fun h => absurd rfl h⟩
  | append_singleton t j ih =>
    rw [List.foldl_append, List.foldl_cons, List.foldl_nil]
    set q := t.foldl (recomputeStep s n) (zeroKey, 0) with hqdef
    obtain ⟨ihz, ihnz⟩ := ih
    rcases hrk : mget (s.remoteKey j) n with _ | rk
    · rw [recomputeStep_none s n q j hrk]
      constructor
      · intro h0
        obtain ⟨h1, h2⟩ := ihz h0
        refine ⟨h1, ?_⟩
        intro i hi fk hfk
        rcases List.mem_append.1 hi with hit | hij
        · exact h2 i hit fk hfk
        · rw [List.mem_singleton] at hij
          subst hij
          rw [hrk] at hfk
          exact Option.noConfusion hfk
      · intro h0
        obtain ⟨⟨i0, hi0, hg0⟩, hb, hbits⟩ := ihnz h0
        refine ⟨⟨i0, List.mem_append_left _ hi0, hg0⟩, ?_, ?_⟩
        · intro i hi fk hfk
          rcases List.mem_append.1 hi with hit | hij
          · exact hb i hit fk hfk
          · rw [List.mem_singleton] at hij
            subst hij
            rw [hrk] at hfk
            exact Option.noConfusion hfk
        · intro i hi hfk
          rcases List.mem_append.1 hi with hit | hij
          · exact hbits i hit hfk
          · rw [List.mem_singleton] at hij
            subst hij
            rw [hrk] at hfk
            exact Option.noConfusion hfk
    · rw [recomputeStep_some s n q j rk hrk]
      by_cases heq : rk = q.1
      · rw [if_pos heq]
        constructor
        · intro h0
          exact absurd h0 (lor_shift_ne_zero q.2 j)
        · intro _
          refine ⟨⟨j, List.mem_append_right _ (List.mem_singleton.2 rfl),
            by rw [hrk, heq]⟩, ?_, ?_⟩
          · intro i hi fk hfk
            rcases List.mem_append.1 hi with hit | hij
            · by_cases h0 : q.2 = 0
              · have hv := ((ihz h0).2 i hit fk hfk).1
                rw [hv]
                exact Nat.zero_le _
              · exact (ihnz h0).2.1 i hit fk hfk
            · rw [List.mem_singleton] at hij
              subst hij
              rw [hrk] at hfk
              injection hfk with hfk
              subst hfk
              rw [heq]
          · intro i hi hfk
            rcases List.mem_append.1 hi with hit | hij
            · by_cases h0 : q.2 = 0
              · exfalso
                obtain ⟨h1, h2⟩ := ihz h0
                exact (h2 i hit q.1 hfk).2 (by rw [h1])
              · exact testBit_lor_left _ _ _ ((ihnz h0).2.2 i hit hfk)
            · rw [List.mem_singleton] at hij
              subst hij
              exact testBit_lor_shift q.2 i
      · rw [if_neg heq]
        by_cases hnew : rk.newerThan q.1
        · rw [if_pos hnew]
          constructor
          · intro h0
            exact absurd h0 (shift_ne_zero j)
          · intro _
            refine ⟨⟨j, List.mem_append_right _ (List.mem_singleton.2 rfl),
              by rw [hrk]⟩, ?_, ?_⟩
            · intro i hi fk hfk
              rcases List.mem_append.1 hi with hit | hij
              · have hle : fk.Version ≤ q.1.Version := by
                  by_cases h0 : q.2 = 0
                  · have hv := ((ihz h0).2 i hit fk hfk).1
                    rw [hv]
                    exact Nat.zero_le _
                  · exact (ihnz h0).2.1 i hit fk hfk
                have hlt : q.1.Version < rk.Version := hnew
                exact le_trans hle (Nat.le_of_lt hlt)
              · rw [List.mem_singleton] at hij
                subst hij
                rw [hrk] at hfk
                injection hfk with hfk
                subst hfk
                exact le_refl _
            · intro i hi hfk
              rcases List.mem_append.1 hi with hit | hij
              · exfalso
                have hle : rk.Version ≤ q.1.Version := by
                  by_cases h0 : q.2 = 0
                  · have hv := ((ihz h0).2 i hit rk hfk).1
                    rw [hv]
                    exact Nat.zero_le _
                  · exact (ihnz h0).2.1 i hit rk hfk
                have hlt : q.1.Version < rk.Version := hnew
                omega
              · rw [List.mem_singleton] at hij
                subst hij
                exact testBit_shift_self i
        · rw [if_neg hnew]
          have hver : rk.Version ≤ q.1.Version := Nat.not_lt.1 hnew
          constructor
          · intro h0
            obtain ⟨h1, h2⟩ := ihz h0
            refine ⟨h1, ?_⟩
            intro i hi fk hfk
            rcases List.mem_append.1 hi with hit | hij
            · exact h2 i hit fk hfk
            · rw [List.mem_singleton] at hij
              subst hij
              rw [hrk] at hfk
              injection hfk with hfk
              subst hfk
              constructor
              · rw [h1, show zeroKey.Version = 0 from rfl] at hver
                omega
              · rw [← h1]
                exact heq
          · intro h0
            obtain ⟨⟨i0, hi0, hg0⟩, hb, hbits⟩ := ihnz h0
            refine ⟨⟨i0, List.mem_append_left _ hi0, hg0⟩, ?_, ?_⟩
            · intro i hi fk hfk
              rcases List.mem_append.1 hi with hit | hij
              · exact hb i hit fk hfk
              · rw [List.mem_singleton] at hij
                subst hij
                rw [hrk] at hfk
                injection hfk with hfk
                subst hfk
                exact hver
            · intro i hi hfk
              rcases List.mem_append.1 hi with hit | hij
              · exact hbits i hit hfk
              · rw [List.mem_singleton] at hij
                subst hij
                rw [hrk] at hfk
                injection hfk with hfk
                exact absurd hfk heq

end SyncSet

namespace SyncSet

theorem recomputeAll_spec (N : List String) :
    ∀ (s1 : FSet), N.Nodup → NodupKeys s1.globalKey →
      NodupKeys s1.globalAvailability →
      (N.foldl recomputeName s1).files = s1.files ∧
      (N.foldl recomputeName s1).remoteKey = s1.remoteKey ∧
      NodupKeys (N.foldl recomputeName s1).globalKey ∧
      NodupKeys (N.foldl recomputeName s1).globalAvailability ∧
      (∀ m, m ∉ N →
        mget (N.foldl recomputeName s1).globalKey m = mget s1.globalKey m ∧
        mget (N.foldl recomputeName s1).globalAvailability m =
          mget s1.globalAvailability m) ∧
      (∀ m, m ∈ N →
        (((List.range 64).foldl (recomputeStep s1 m) (zeroKey, 0)).2 ≠ 0 →
          mget (N.foldl recomputeName s1).globalKey m =
            some ((List.range 64).foldl (recomputeStep s1 m)
              (zeroKey, 0)).1 ∧
          mget (N.foldl recomputeName s1).globalAvailability m =
            some ((List.range 64).foldl (recomputeStep s1 m)
              (zeroKey, 0)).2) ∧
        (((List.range 64).foldl (recomputeStep s1 m) (zeroKey, 0)).2 = 0 →
          mget (N.foldl recomputeName s1).globalKey m = none ∧
          mget (N.foldl recomputeName s1).globalAvailability m = none)) := by
  induction N with
  | nil =>
    intro s1 _ h1 h2
    exact ⟨rfl, rfl, h1, h2, fun m _ => ⟨rfl, rfl⟩,
      fun m hm => absurd hm (List.not_mem_nil m)⟩
  | cons a t ih =>
    intro s1 hnd h1 h2
    rw [List.nodup_cons] at hnd
    obtain ⟨hfa, hrka⟩ := recomputeName_files s1 a
    obtain ⟨hga, hava⟩ := recomputeName_nodup s1 a h1 h2
    obtain ⟨hf, hrk, hg1, hg2, hout, hin⟩ :=
      ih (recomputeName s1 a) hnd.2 hga hava
    rw [List.foldl_cons]
    have hstep : ∀ m, recomputeStep (recomputeName s1 a) m =
        recomputeStep s1 m := fun m =>
      recomputeStep_congr _ _ m (fun i => by rw [hrka])
    refine ⟨by rw [hf, hfa], by rw [hrk, hrka], hg1, hg2, ?_, ?_⟩
    · intro m hm
      have hm1 : m ∉ t := fun h => hm (List.mem_cons_of_mem a h)
      have hma : m ≠ a := fun h => hm (h ▸ List.mem_cons_self a t)
      obtain ⟨e1, e2⟩ := hout m hm1
      obtain ⟨f1, f2⟩ := recomputeName_global_other s1 a m hma
      exact ⟨by rw [e1, f1], by rw [e2, f2]⟩
    · intro m hm
      rcases List.mem_cons.1 hm with hma | hmt
      · rw [hma]
        obtain ⟨e1, e2⟩ := hout a hnd.1
        obtain ⟨hz1, hz2⟩ := recomputeName_global_self s1 a h1 h2
        constructor
        · intro hnz
          obtain ⟨g1, g2⟩ := hz1 hnz
          exact ⟨by rw [e1, g1], by rw [e2, g2]⟩
        · intro hz
          obtain ⟨g1, g2⟩ := hz2 hz
          exact ⟨by rw [e1, g1], by rw [e2, g2]⟩
      · have hres := hin m hmt
        rw [hstep m] at hres
        exact hres

end SyncSet

namespace SyncSet

theorem INV_clearRecompute (cid : Nat) (s : FSet) (hs : INV s)
    (hcid : cid < 64) :
    INV (((clearSlot cid s).globalKey.map Prod.fst).foldl recomputeName
      (clearSlot cid s)) := by
  obtain ⟨hcnd, hch⟩ := clearSlot_spec cid s hs
  obtain ⟨hf, hrk, hg1, hg2, hout, hin⟩ :=
    recomputeAll_spec ((clearSlot cid s).globalKey.map Prod.fst)
      (clearSlot cid s) hs.ndGlobal hs.ndGlobal hs.ndAvail
  set s2 := ((clearSlot cid s).globalKey.map Prod.fst).foldl recomputeName
    (clearSlot cid s) with hs2def
  have hslot : ∀ i, s2.remoteKey i =
      if i = cid then [] else s.remoteKey i := fun i => by
    rw [hrk]
    rfl
  have hfiles : ∀ k, mget s2.files k =
      if mget (s.remoteKey cid) k.Name = some k then
        decOneOpt (mget s.files k)
      else mget s.files k := fun k => by
    rw [hf]
    exact hch k
  have hres : ∀ i n fk, mget (s2.remoteKey i) n = some fk →
      fk.Name = n ∧ ∃ fr, mget s2.files fk = some fr := by
    intro i n fk hget
    rw [hrk] at hget
    obtain ⟨h1, fr, h2⟩ := clearSlot_resident cid s hs hcid i n fk hget
    exact ⟨h1, fr, by rw [hf]; exact h2⟩
  have hlt64 : ∀ i n fk, mget (s2.remoteKey i) n = some fk →
      i < 64 ∧ i ≠ cid := by
    intro i n fk hget
    rw [hslot i] at hget
    by_cases hic : i = cid
    · rw [if_pos hic] at hget
      exact Option.noConfusion hget
    · rw [if_neg hic] at hget
      refine ⟨?_, hic⟩
      by_contra h
      rw [hs.slotHi i (by omega)] at hget
      exact Option.noConfusion hget
  have hslot_s : ∀ i n fk, mget (s2.remoteKey i) n = some fk →
      mget (s.remoteKey i) n = some fk := by
    intro i n fk hget
    have h := (hlt64 i n fk hget).2
    rw [hslot i, if_neg h] at hget
    exact hget
  refine ⟨?_, hg1, hg2, ?_, ?_, ?_, ?_, ?_, ?_, ?_, ?_, ?_⟩
  · rw [hf]
    exact hcnd
  · intro i
    by_cases hic : i = cid
    · rw [hslot i, if_pos hic]
      exact List.nodup_nil
    · rw [hslot i, if_neg hic]
      exact hs.ndSlot i
  · intro i h64
    have hic : i ≠ cid := by omega
    rw [hslot i, if_neg hic]
    exact hs.slotHi i h64
  · intro i n fk h
    exact hres i n fk h
  · intro fk fr hfr
    rw [hfiles fk] at hfr
    by_cases hd : mget (s.remoteKey cid) fk.Name = some fk
    · rw [if_pos hd] at hfr
      rcases hsf : mget s.files fk with _ | fr0
      · rw [hsf] at hfr
        exact Option.noConfusion hfr
      · rw [hsf] at hfr
        obtain ⟨hname0, hrc0⟩ := hs.filesRec fk fr0 hsf
        have h1le : 1 ≤ refCount s fk := one_le_refCount s fk cid hcid hd
        have hu1 : (1 : Int) ≤ fr0.Usage :=
          le_trans (by exact_mod_cast h1le) hrc0
        rw [decOneOpt_some] at hfr
        by_cases he1 : fr0.Usage = 1
        · rw [if_pos he1] at hfr
          exact Option.noConfusion hfr
        · rw [if_neg he1, if_pos (by omega)] at hfr
          injection hfr with hfr
          have hins : refCount s fk = refCount s2 fk + 1 := by
            refine refCount_insert s2 s fk cid hcid hd ?_ ?_
            · rw [hslot cid, if_pos rfl]
              intro hcc
              exact Option.noConfusion hcc
            · intro i hi hic
              rw [hslot i, if_neg hic]
          constructor
          · rw [← hfr]
            exact hname0
          · rw [← hfr]
            show (refCount s2 fk : Int) ≤ fr0.Usage - 1
            omega
    · rw [if_neg hd] at hfr
      obtain ⟨hname0, hrc0⟩ := hs.filesRec fk fr hfr
      refine ⟨hname0, ?_⟩
      have hle : refCount s2 fk ≤ refCount s fk := by
        refine refCount_le s s2 fk ?_
        intro i hi hget
        rw [hslot i] at hget
        by_cases hic : i = cid
        · rw [if_pos hic] at hget
          exact Option.noConfusion hget
        · rw [if_neg hic] at hget
          exact hget
      have hlei : (refCount s2 fk : Int) ≤ (refCount s fk : Int) := by
        exact_mod_cast hle
      omega
  · intro n gk hg
    by_cases hm : n ∈ (clearSlot cid s).globalKey.map Prod.fst
    · obtain ⟨hin1, hin2⟩ := hin n hm
      by_cases hz : ((List.range 64).foldl
          (recomputeStep (clearSlot cid s) n) (zeroKey, 0)).2 = 0
      · obtain ⟨g1, _⟩ := hin2 hz
        rw [g1] at hg
        exact Option.noConfusion hg
      · obtain ⟨g1, g2⟩ := hin1 hz
        rw [g1] at hg
        injection hg with hg
        obtain ⟨_, hspec⟩ :=
          recompute_fold_spec (clearSlot cid s) n (List.range 64)
        obtain ⟨⟨i0, hi0, hg0⟩, hbound, _⟩ := hspec hz
        rw [hg] at hg0 hbound
        have hg0s : mget (s2.remoteKey i0) n = some gk := by
          rw [hrk]
          exact hg0
        obtain ⟨hname, hfr⟩ := hres i0 n gk hg0s
        refine ⟨hname, hfr, ?_⟩
        intro i fk hfk
        have hi64 := (hlt64 i n fk hfk).1
        rw [hrk] at hfk
        exact hbound i (List.mem_range.2 hi64) fk hfk
    · obtain ⟨e1, _⟩ := hout n hm
      rw [e1, mget_eq_none_of_not_mem hm] at hg
      exact Option.noConfusion hg
  · intro n hnone i fk hget
    have hi64 := (hlt64 i n fk hget).1
    have hgs : mget (s.remoteKey i) n = some fk := hslot_s i n fk hget
    by_cases hm : n ∈ (clearSlot cid s).globalKey.map Prod.fst
    · obtain ⟨hin1, hin2⟩ := hin n hm
      by_cases hz : ((List.range 64).foldl
          (recomputeStep (clearSlot cid s) n) (zeroKey, 0)).2 = 0
      · obtain ⟨hspec0, _⟩ :=
          recompute_fold_spec (clearSlot cid s) n (List.range 64)
        obtain ⟨_, hvz⟩ := hspec0 hz
        rw [hrk] at hget
        exact (hvz i (List.mem_range.2 hi64) fk hget).1
      · obtain ⟨g1, _⟩ := hin1 hz
        rw [hnone] at g1
        exact Option.noConfusion g1
    · exact hs.globNone n (mget_eq_none_of_not_mem hm) i fk hgs
  · intro n
    by_cases hm : n ∈ (clearSlot cid s).globalKey.map Prod.fst
    · obtain ⟨hin1, hin2⟩ := hin n hm
      by_cases hz : ((List.range 64).foldl
          (recomputeStep (clearSlot cid s) n) (zeroKey, 0)).2 = 0
      · obtain ⟨g1, g2⟩ := hin2 hz
        rw [g1, g2]
        exact iff_of_true rfl rfl
      · obtain ⟨g1, g2⟩ := hin1 hz
        rw [g1, g2]
        exact iff_of_false (fun h => Option.noConfusion h)
          (fun h => Option.noConfusion h)
    · obtain ⟨e1, e2⟩ := hout n hm
      rw [e1, e2]
      exact hs.availDom n
  · intro n a ha
    by_cases hm : n ∈ (clearSlot cid s).globalKey.map Prod.fst
    · obtain ⟨hin1, hin2⟩ := hin n hm
      by_cases hz : ((List.range 64).foldl
          (recomputeStep (clearSlot cid s) n) (zeroKey, 0)).2 = 0
      · obtain ⟨_, g2⟩ := hin2 hz
        rw [g2] at ha
        exact Option.noConfusion ha
      · obtain ⟨_, g2⟩ := hin1 hz
        rw [g2] at ha
        injection ha with ha
        rw [← ha]
        exact hz
    · obtain ⟨_, e2⟩ := hout n hm
      rw [e2] at ha
      exact hs.availPos n a ha
  · intro n gk hg i hslotg
    by_cases hm : n ∈ (clearSlot cid s).globalKey.map Prod.fst
    · obtain ⟨hin1, hin2⟩ := hin n hm
      by_cases hz : ((List.range 64).foldl
          (recomputeStep (clearSlot cid s) n) (zeroKey, 0)).2 = 0
      · obtain ⟨g1, _⟩ := hin2 hz
        rw [g1] at hg
        exact Option.noConfusion hg
      · obtain ⟨g1, g2⟩ := hin1 hz
        rw [g1] at hg
        injection hg with hg
        have hi64 := (hlt64 i n gk hslotg).1
        obtain ⟨_, hspec⟩ :=
          recompute_fold_spec (clearSlot cid s) n (List.range 64)
        obtain ⟨_, _, hbits⟩ := hspec hz
        rw [hrk] at hslotg
        rw [← hg] at hslotg
        rw [g2]
        exact hbits i (List.mem_range.2 hi64) hslotg
    · obtain ⟨e1, _⟩ := hout n hm
      rw [e1, mget_eq_none_of_not_mem hm] at hg
      exact Option.noConfusion hg

end SyncSet

namespace SyncSet

theorem INV_setRemote (cid : Nat) (fs : List SFile) (s : FSet)
    (hs : INV s) (hcid : cid < 64) : INV (setRemote cid fs s) :=
  INV_addRemote cid fs _ (INV_clearRecompute cid s hs hcid) hcid

theorem INV_initialSet : INV initialSet := by
  refine ⟨List.nodup_nil, List.nodup_nil, List.nodup_nil,
    fun i => List.nodup_nil, fun i _ => rfl,
    fun i n fk h => Option.noConfusion h,
    fun fk fr h => Option.noConfusion h,
    fun n gk h => Option.noConfusion h,
    fun n _ i fk h => Option.noConfusion h,
    fun n => iff_of_true rfl rfl,
    fun n a h => Option.noConfusion h,
    fun n gk h => Option.noConfusion h⟩

theorem INV_reachable (s : FSet) (h : Reachable s) : INV s := by
  induction h with
  | base => exact INV_initialSet
  | setLocalR fs _ ih => exact INV_setRemote 0 _ _ ih (by omega)
  | setLocalNoDeleteR fs _ ih => exact INV_setRemote 0 fs _ ih (by omega)
  | addLocalR fs _ ih => exact INV_addRemote 0 fs _ ih (by omega)
  | setRemoteR cid fs _ h1 h63 ih =>
    exact INV_setRemote cid fs _ ih (by omega)
  | addRemoteR cid fs _ h1 h63 ih =>
    exact INV_addRemote cid fs _ ih (by omega)

end SyncSet

namespace SyncSet

/-- C1 (amended): in every reachable state, the global key for a name is an
upper bound — not necessarily an attained maximum — on every slot's version
for that name; the availability bitset covers (at least) every slot whose
key equals the global key; and availability reads 0 exactly for the names
absent from the global map. -/
theorem global_upper_bound_and_availability (s : FSet) (hr : Reachable s) :
    (∀ n gk, mget s.globalKey n = some gk →
      (∀ i fk, mget (s.remoteKey i) n = some fk →
        fk.Version ≤ gk.Version) ∧
      (∀ i, mget (s.remoteKey i) n = some gk →
        Nat.testBit (availabilityS s n) i)) ∧
    (∀ n, availabilityS s n = 0 ↔ mget s.globalKey n = none) := by
  have hs := INV_reachable s hr
  constructor
  · intro n gk hg
    refine ⟨(hs.globKey n gk hg).2.2, ?_⟩
    intro i hi
    exact hs.availSup n gk hg i hi
  · intro n
    constructor
    · intro h0
      rcases hgk : mget s.globalKey n with _ | gk
      · rfl
      · exfalso
        rcases hav : mget s.globalAvailability n with _ | a
        · rw [(hs.availDom n).1 hav] at hgk
          exact Option.noConfusion hgk
        · have hpos := hs.availPos n a hav
          unfold availabilityS at h0
          rw [hav] at h0
          exact hpos h0
    · intro hnone
      unfold availabilityS
      rw [(hs.availDom n).2 hnone]
      rfl

/-- C1 witness: at the reachable state where slot 1 announced a@2 and then
a@1, the availability-zero test agrees with global membership for a. -/
theorem global_upper_bound_and_availability_witness :
    (availabilityS stateC1 nmA = 0 ↔ mget stateC1.globalKey nmA = none) :=
  (global_upper_bound_and_availability stateC1
    (Reachable.addRemoteR 1 [plainFile nmA 1]
      (Reachable.setRemoteR 1 [plainFile nmA 2] Reachable.base
        (by omega) (by omega)) (by omega) (by omega))).2 nmA

/-- C2 (amended): in every reachable state, for every slot i, a record f is
returned by Need(i) iff the global key for f.Name exists, f is the record
stored in files under that key, and the global key's version strictly
exceeds the version of slot i's key for the name, where a missing slot key
counts as version 0 (so a version-0 global key — reachable via uint32
wraparound — is never needed, even by a slot with no key for the name). -/
theorem need_characterization (s : FSet) (hr : Reachable s) (i : Nat)
    (f : SFile) :
    f ∈ needS s i ↔ ∃ gk fr, mget s.globalKey f.Name = some gk ∧
      mget s.files gk = some fr ∧ fr.File = f ∧
      ((mget (s.remoteKey i) f.Name).getD zeroKey).Version < gk.Version := by
  have hs := INV_reachable s hr
  unfold needS
  rw [List.mem_filterMap]
  constructor
  · rintro ⟨⟨n, gk⟩, hp, hcond⟩
    simp only at hcond
    by_cases hcnd : FKey.newerThan gk ((mget (s.remoteKey i) n).getD zeroKey)
    · rw [if_pos hcnd] at hcond
      injection hcond with hcond
      have hg : mget s.globalKey n = some gk := mget_of_mem hs.ndGlobal hp
      rcases hs.globKey n gk hg with ⟨hname, ⟨fr, hfr⟩, _⟩
      have hfname : fr.File.Name = gk.Name := (hs.filesRec gk fr hfr).1
      have hffr : f = fr.File := by
        rw [← hcond, hfr]
        rfl
      have hfn : f.Name = n := by
        rw [hffr, hfname, hname]
      refine ⟨gk, fr, ?_, hfr, hffr.symm, ?_⟩
      · rw [hfn]
        exact hg
      · rw [hfn]
        exact hcnd
    · rw [if_neg hcnd] at hcond
      exact Option.noConfusion hcond
  · rintro ⟨gk, fr, hg, hfr, hffr, hlt⟩
    refine ⟨(f.Name, gk), mem_of_mget hg, ?_⟩
    simp only
    rw [if_pos (show FKey.newerThan gk
        ((mget (s.remoteKey i) f.Name).getD zeroKey) from hlt), hfr]
    rw [show ((some fr).getD zeroRecord).File = fr.File from rfl, hffr]

/-- C2 witness: at the reachable state where slot 1 announced a@2 and then
a@1, the local slot (which holds no key for a) needs the a@2 record. -/
theorem need_characterization_witness :
    plainFile nmA 2 ∈ needS stateC1 0 :=
  (need_characterization stateC1
    (Reachable.addRemoteR 1 [plainFile nmA 1]
      (Reachable.setRemoteR 1 [plainFile nmA 2] Reachable.base
        (by omega) (by omega)) (by omega) (by omega)) 0
    (plainFile nmA 2)).2
    ⟨{ Name := nmA, Version := 2 },
     { Usage := 1, File := plainFile nmA 2 },
     by decide, by decide, by decide, by decide⟩

/-- C4 (amended): in every reachable state, files[k].Usage is an upper
bound on the number of slots whose current key for k.Name is k (replaced
keys leak: the count can be strictly smaller, so zero-reference keys may
stay resident), and every key currently referenced by any slot is present
in files. -/
theorem usage_bounds_and_residency (s : FSet) (hr : Reachable s) :
    (∀ fk fr, mget s.files fk = some fr →
      (refCount s fk : Int) ≤ fr.Usage) ∧
    (∀ i n fk, mget (s.remoteKey i) n = some fk →
      ∃ fr, mget s.files fk = some fr) := by
  have hs := INV_reachable s hr
  exact ⟨fun fk fr h => (hs.filesRec fk fr h).2,
    fun i n fk h => (hs.slotKey i n fk h).2⟩

/-- C4 witness: at the reachable state where slot 1 replaced a@1 by a@2,
the leaked (a,1) record's usage count 1 bounds its zero reference count. -/
theorem usage_bounds_and_residency_witness :
    (refCount stateC4 { Name := nmA, Version := 1 } : Int) ≤
      ({ Usage := 1, File := plainFile nmA 1 } : FileRecord).Usage :=
  (usage_bounds_and_residency stateC4
    (Reachable.addRemoteR 1 [plainFile nmA 2]
      (Reachable.setRemoteR 1 [plainFile nmA 1] Reachable.base
        (by omega) (by omega)) (by omega) (by omega))).1
    { Name := nmA, Version := 1 } { Usage := 1, File := plainFile nmA 1 }
    (by decide)

end SyncSet
